import Mathlib

/-!
A shallow embedding in Lean 4 of the razel build scheduler
(`src/scheduler.rs`, `src/cache.rs`), together with theorems about its
behavior: path resolution, the file-interning registry, dependency-graph
construction, success/failure propagation in the execution loop, the
input-digest pass, and streamed file digesting.

Rust `PathBuf` values are modelled component-wise, machine integers as
`Nat`/`Int`, fallible functions (`Result`) as `Except String`, and
`panic!`/`assert!` aborts as `Option` (`none` = panic).  External library
calls (SHA-256 state, `which`, file I/O) are modelled at contract level as
explicit parameters/oracles.
-/

set_option maxHeartbeats 1000000

/-- Model of Rust `PathBuf`: an absolute-flag plus the list of normal
components (`Path::components` without `RootDir`). -/
structure RPath where
  absolute : Bool
  components : List String
deriving DecidableEq, Repr, Inhabited

/-- Model of `PathBuf::join`: an absolute right operand replaces the left
one, otherwise components are appended. -/
def RPath.join (p q : RPath) : RPath :=
  if q.absolute then q else ⟨p.absolute, p.components ++ q.components⟩

/-- Model of `Path::strip_prefix`: succeeds iff `base` is a component-wise
prefix of `p` (with matching absoluteness), returning the relative rest. -/
def RPath.stripPre (p base : RPath) : Option RPath :=
  if base.absolute = p.absolute ∧ base.components.isPrefixOf p.components then
    some ⟨false, p.components.drop base.components.length⟩
  else
    none

/-- Rendering of a path for error messages (model of `Display`/`Debug`). -/
def RPath.render (p : RPath) : String :=
  (if p.absolute then "/" else "") ++ String.intercalate "/" p.components

/-- Model of `bazel_remote_exec::Digest`: lowercase-hex SHA-256 plus size. -/
structure Digest where
  hash : String
  size_bytes : Int
deriving DecidableEq, Repr, Inhabited

abbrev FileId := Nat
abbrev CommandId := Nat

/-- Model of `File` (declared outside `src/scheduler.rs`; fields as used by
the scheduler and described by the spec data model). -/
structure File where
  id : FileId
  arg : RPath
  path : RPath
  creating_command : Option CommandId
  digest : Option Digest
deriving DecidableEq, Repr, Inhabited

/-- Model of `ScheduleState` from `src/scheduler.rs`. -/
inductive ScheduleState where
  | New
  | Waiting
  | Ready
  | Succeeded
  | Failed
deriving DecidableEq, Repr, Inhabited

/-- Model of `Command` (declared outside `src/scheduler.rs`; fields as used
by the scheduler: id, name, inputs, outputs, schedule_state,
unfinished_deps, reverse_deps; the executor is externalized). -/
structure Command where
  id : CommandId
  name : String
  inputs : List FileId
  outputs : List FileId
  schedule_state : ScheduleState
  unfinished_deps : List CommandId
  reverse_deps : List CommandId
deriving DecidableEq, Repr, Inhabited

/-- Modelled from the spec: `CommandBuilder` (its module is not under
`src/`) carries the name and the already-interned input/output file ids. -/
structure CommandBuilder where
  name : String
  inputs : List FileId
  outputs : List FileId
deriving DecidableEq, Repr, Inhabited

/-- Modelled from the spec: `CommandBuilder::build(id)` produces a fresh
`Command` embedding its own id, in state `New` with empty dep lists. -/
def CommandBuilder.build (b : CommandBuilder) (id : CommandId) : Command :=
  ⟨id, b.name, b.inputs, b.outputs, .New, [], []⟩

/-- Model of `SchedulerResult` from `src/scheduler.rs`. -/
structure SchedulerResult where
  succeeded : Nat
  failed : Nat
  not_run : Nat
deriving DecidableEq, Repr, Inhabited

/-- Model of the `Scheduler` state.  The arenas (`Arena<File>`,
`Arena<Command>`, spec §4.A: dense append-only containers whose handles are
insertion indices) are `List`s indexed by id; the hash maps are association lists with
most-recent-first lookup; the `running` counter is refined to the list of
in-flight command ids (its length is the Rust counter). -/
structure Scheduler where
  worker_threads : Nat
  workspace_dir : RPath
  current_dir : RPath
  bin_dir : RPath
  files : List File
  path_to_file_id : List (RPath × FileId)
  which_to_file_id : List (String × FileId)
  commands : List Command
  waiting : List CommandId
  ready : List CommandId
  running : List CommandId
  succeeded : List CommandId
  failed : List CommandId
deriving DecidableEq, Repr, Inhabited

/-- Total arena access used where the Rust code indexes an arena it knows
to be in range (out of range gives the `default` element). -/
def fileAt (s : Scheduler) (i : FileId) : File := s.files.getD i default

/-- Total command access, analogous to `fileAt`. -/
def cmdAt (s : Scheduler) (i : CommandId) : Command := s.commands.getD i default

/-- Model of `HashMap::get` on the path registry. -/
def lookupPath (m : List (RPath × FileId)) (k : RPath) : Option FileId :=
  (m.find? (fun kv => kv.1 = k)).map (·.2)

/-- Model of `Scheduler::rel_path` (`src/scheduler.rs:227-245`): absolute
args are returned with the `current_dir` prefix stripped when possible and
unchanged otherwise; relative args are joined onto `workspace_dir` and must
strip the `current_dir` prefix, else an error is raised. -/
def Scheduler.rel_path (s : Scheduler) (arg : RPath) : Except String RPath :=
  if arg.absolute then
    .ok ((arg.stripPre s.current_dir).getD arg)
  else
    match (s.workspace_dir.join arg).stripPre s.current_dir with
    | some p => .ok p
    | none =>
      .error ("File is not within cwd (" ++ s.current_dir.render ++ "): "
        ++ arg.render)

/-- C7: path resolution.  For an absolute `arg`, `rel_path` never fails: it
strips the `current_dir` prefix when `arg` starts with `current_dir` and
returns `arg` unchanged otherwise.  For a relative `arg` it returns
`workspace_dir/arg` with the `current_dir` prefix stripped, or an error
stating the file is not within the current working directory when that
join does not start with `current_dir`. -/
theorem rel_path_spec (s : Scheduler) (arg : RPath) :
    (arg.absolute = true →
      (∀ stripped, arg.stripPre s.current_dir = some stripped →
        s.rel_path arg = .ok stripped) ∧
      (arg.stripPre s.current_dir = none → s.rel_path arg = .ok arg)) ∧
    (arg.absolute = false →
      (∀ stripped,
        (s.workspace_dir.join arg).stripPre s.current_dir = some stripped →
          s.rel_path arg = .ok stripped) ∧
      ((s.workspace_dir.join arg).stripPre s.current_dir = none →
        ∃ rest, s.rel_path arg = .error ("File is not within cwd" ++ rest))) := by
  constructor
  · intro habs
    constructor
    · intro stripped hstrip
      simp [Scheduler.rel_path, habs, hstrip]
    · intro hstrip
      simp [Scheduler.rel_path, habs, hstrip]
  · intro habs
    constructor
    · intro stripped hstrip
      simp [Scheduler.rel_path, habs, hstrip]
    · intro hstrip
      refine ⟨" (" ++ s.current_dir.render ++ "): " ++ arg.render, ?_⟩
      simp [Scheduler.rel_path, habs, hstrip]
      rw [show ("File is not within cwd (" : String)
          = "File is not within cwd" ++ " (" from rfl]
      simp only [← String.append_assoc]

/-- Model of `Scheduler::input_file` (`src/scheduler.rs:179-197`):
normalize `arg`, return the existing handle when the path is interned,
otherwise allocate a fresh `File` with `creating_command = None` and
register it. -/
def Scheduler.input_file (s : Scheduler) (arg : RPath) :
    Except String (Scheduler × FileId) :=
  match s.rel_path arg with
  | .error e => .error e
  | .ok rel =>
  match lookupPath s.path_to_file_id rel with
  | some id => .ok (s, id)
  | none =>
    let id := s.files.length
    let f : File := ⟨id, arg, rel, none, none⟩
    .ok ({ s with
            files := s.files ++ [f],
            path_to_file_id := (rel, id) :: s.path_to_file_id }, id)

/-- Model of `Scheduler::output_file` (`src/scheduler.rs:199-224`):
normalize `arg`; fail when the path is already interned (naming the
creating command when there is one), otherwise allocate a fresh `File`
whose on-disk path is `bin_dir.join(rel_path)` and register it under the
workspace-relative path. -/
def Scheduler.output_file (s : Scheduler) (arg : RPath) :
    Except String (Scheduler × FileId) :=
  match s.rel_path arg with
  | .error e => .error e
  | .ok rel =>
  match lookupPath s.path_to_file_id rel with
  | some fid =>
    match (fileAt s fid).creating_command with
    | some c =>
      .error ("File " ++ arg.render
        ++ " cannot be output of multiple commands, already output of "
        ++ (cmdAt s c).name)
    | none =>
      .error ("File " ++ arg.render
        ++ " cannot be output because it's already used as data")
  | none =>
    let id := s.files.length
    let f : File := ⟨id, arg, s.bin_dir.join rel, none, none⟩
    .ok ({ s with
            files := s.files ++ [f],
            path_to_file_id := (rel, id) :: s.path_to_file_id }, id)

/-- Model of `Scheduler::executable` (`src/scheduler.rs:165-177`).  The
argument carries both the raw string and its parse `Path::new(arg)`; the
external PATH lookup `which(&arg)` is an explicit oracle value. -/
def Scheduler.executable (s : Scheduler) (arg : String) (parsed : RPath)
    (whichResult : Except String RPath) : Except String (Scheduler × FileId) :=
  if arg.contains '.' then
    s.input_file parsed
  else
    match (s.which_to_file_id.find? (fun kv => kv.1 = arg)).map (·.2) with
    | some fid => .ok (s, fid)
    | none =>
      match whichResult with
      | .error e => .error e
      | .ok path =>
        match s.input_file path with
        | .error e => .error e
        | .ok (s', id) =>
          .ok ({ s' with
                  which_to_file_id := (arg, id) :: s'.which_to_file_id }, id)

/-- Model of the output back-patching loop in `Scheduler::push`
(`src/scheduler.rs:127-131`): for each output file, assert that
`creating_command` is unset and set it to the new command id.  `none`
models the `assert!`/index panic. -/
def patchOutputs (files : List File) (id : CommandId) :
    List FileId → Option (List File)
  | [] => some files
  | fid :: rest =>
    match files[fid]? with
    | none => none
    | some f =>
      if f.creating_command = none then
        patchOutputs (files.set fid { f with creating_command := some id })
          id rest
      else none

/-- Model of `Scheduler::push` (`src/scheduler.rs:123-133`): allocate the
command with the next id via `CommandBuilder::build`, back-patch
`creating_command` on its outputs, and return the id.  The function body
has no error path at all (its `Result` error arm is unreachable); the only
abnormal exit is the `assert!` panic, modelled by `none`. -/
def Scheduler.push (s : Scheduler) (b : CommandBuilder) :
    Option (Scheduler × CommandId) :=
  let id := s.commands.length
  let cmds := s.commands ++ [b.build id]
  match patchOutputs s.files id b.outputs with
  | none => none
  | some files => some ({ s with commands := cmds, files := files }, id)

theorem patchOutputs_spec (id : CommandId) :
    ∀ (l : List FileId) (files : List File), l.Nodup →
    (∀ fid ∈ l, fid < files.length ∧
      (files.getD fid default).creating_command = none) →
    ∃ files', patchOutputs files id l = some files' ∧
      files'.length = files.length ∧
      (∀ fid ∈ l,
        files'[fid]? = some { files.getD fid default with
                                creating_command := some id }) ∧
      (∀ fid, fid ∉ l → files'[fid]? = files[fid]?) := by
  intro l
  induction l with
  | nil =>
    intro files _ _
    exact ⟨files, rfl, rfl, by simp, fun _ _ => rfl⟩
  | cons fid rest ih =>
    intro files hnodup hpre
    obtain ⟨hlt, hcc⟩ := hpre fid (by simp)
    have hget : files[fid]? = some (files.getD fid default) := by
      rw [List.getD_eq_getElem?_getD, List.getElem?_eq_getElem hlt]
      simp
    have hnotmem : fid ∉ rest := (List.nodup_cons.mp hnodup).1
    have hrest : ∀ fid' ∈ rest,
        fid' < (files.set fid { files.getD fid default with
                                  creating_command := some id }).length ∧
        ((files.set fid { files.getD fid default with
            creating_command := some id }).getD fid' default).creating_command
          = none := by
      intro fid' hmem
      have hne : fid ≠ fid' := fun h => hnotmem (h ▸ hmem)
      obtain ⟨h1, h2⟩ := hpre fid' (by simp [hmem])
      refine ⟨by simpa using h1, ?_⟩
      rw [List.getD_eq_getElem?_getD, List.getElem?_set_ne hne,
        ← List.getD_eq_getElem?_getD]
      exact h2
    obtain ⟨files', heq, hlen, hmemspec, hother⟩ :=
      ih (files.set fid { files.getD fid default with
            creating_command := some id }) (List.nodup_cons.mp hnodup).2 hrest
    refine ⟨files', ?_, by simpa using hlen, ?_, ?_⟩
    · simp only [patchOutputs, hget, hcc]
      simpa using heq
    · intro fid' hmem
      rcases List.mem_cons.mp hmem with h | h
      · subst h
        rw [hother fid' hnotmem, List.getElem?_set_self hlt]
      · rw [hmemspec fid' h]
        have hne : fid ≠ fid' := fun hh => hnotmem (hh ▸ h)
        rw [List.getD_eq_getElem?_getD, List.getElem?_set_ne hne,
          ← List.getD_eq_getElem?_getD]
    · intro fid' hni
      have h1 : fid' ∉ rest := fun h => hni (by simp [h])
      have hne : fid ≠ fid' := fun h => hni (by simp [h])
      rw [hother fid' h1, List.getElem?_set_ne hne]

/-- C10: `Scheduler::push` has no reachable error path: for every builder
whose declared outputs are in range, distinct, and not yet claimed (the
`assert!` precondition), it returns `Ok` with the id of the newly
allocated command — in particular no duplicate-name check is performed,
the builder's name being unconstrained — and it back-patches
`creating_command = Some(new id)` on each of the command's output files,
leaving all other files untouched. -/
theorem push_spec (s : Scheduler) (b : CommandBuilder)
    (hnodup : b.outputs.Nodup)
    (hout : ∀ fid ∈ b.outputs, fid < s.files.length ∧
      (s.files.getD fid default).creating_command = none) :
    ∃ s', s.push b = some (s', s.commands.length) ∧
      s'.commands = s.commands ++ [b.build s.commands.length] ∧
      s'.files.length = s.files.length ∧
      (∀ fid ∈ b.outputs,
        (fileAt s' fid).creating_command = some s.commands.length) ∧
      (∀ fid, fid ∉ b.outputs → s'.files[fid]? = s.files[fid]?) := by
  obtain ⟨files', heq, hlen, hmemspec, hother⟩ :=
    patchOutputs_spec s.commands.length b.outputs s.files hnodup hout
  let t : Scheduler :=
    { s with commands := s.commands ++ [b.build s.commands.length],
             files := files' }
  refine ⟨t, ?_, rfl, hlen, ?_, hother⟩
  · simp only [Scheduler.push, heq]
  · intro fid hmem
    simp only [fileAt, List.getD_eq_getElem?_getD, hmemspec fid hmem,
      Option.getD_some]

/-- C5: output-file conflict rejection.  Given that `arg` normalizes to
`rel`, `output_file` fails exactly when `rel` is already interned: when the
existing file has a `creating_command` the error message names that
conflicting command (hence a second command declaring an already-declared
output path fails with a message naming the first command); when the path
was registered as an input the error says the file is already used as
data.  On success it allocates a fresh `File` whose on-disk path is
`bin_dir` joined with the workspace-relative path, registered under the
workspace-relative path. -/
theorem output_file_spec (s : Scheduler) (arg rel : RPath)
    (hrel : s.rel_path arg = .ok rel) :
    (∀ fid, lookupPath s.path_to_file_id rel = some fid →
      (∀ c, (fileAt s fid).creating_command = some c →
        s.output_file arg = .error ("File " ++ arg.render
          ++ " cannot be output of multiple commands, already output of "
          ++ (cmdAt s c).name)) ∧
      ((fileAt s fid).creating_command = none →
        s.output_file arg = .error ("File " ++ arg.render
          ++ " cannot be output because it's already used as data"))) ∧
    (lookupPath s.path_to_file_id rel = none →
      ∃ s', s.output_file arg = .ok (s', s.files.length) ∧
        s'.files = s.files
          ++ [⟨s.files.length, arg, s.bin_dir.join rel, none, none⟩] ∧
        s'.path_to_file_id = (rel, s.files.length) :: s.path_to_file_id) := by
  constructor
  · intro fid hlook
    constructor
    · intro c hcc
      simp only [Scheduler.output_file, hrel, hlook, hcc]
    · intro hcc
      simp only [Scheduler.output_file, hrel, hlook, hcc]
  · intro hlook
    let t : Scheduler :=
      { s with
          files := s.files
            ++ [⟨s.files.length, arg, s.bin_dir.join rel, none, none⟩],
          path_to_file_id := (rel, s.files.length) :: s.path_to_file_id }
    refine ⟨t, ?_, rfl, rfl⟩
    simp only [Scheduler.output_file, hrel, hlook]

/-- Concrete scheduler state used to instantiate theorems: empty arenas,
`current_dir = workspace_dir = /cwd`, `bin_dir = /cwd/razel-bin`. -/
def sampleSched : Scheduler :=
  { worker_threads := 1
    workspace_dir := ⟨true, ["cwd"]⟩
    current_dir := ⟨true, ["cwd"]⟩
    bin_dir := ⟨true, ["cwd", "razel-bin"]⟩
    files := []
    path_to_file_id := []
    which_to_file_id := []
    commands := []
    waiting := []
    ready := []
    running := []
    succeeded := []
    failed := [] }

theorem rel_path_spec_witness :
    (sampleSched.workspace_dir.join ⟨false, ["a.txt"]⟩).stripPre
        sampleSched.current_dir = some ⟨false, ["a.txt"]⟩ ∧
    sampleSched.rel_path ⟨false, ["a.txt"]⟩ = .ok ⟨false, ["a.txt"]⟩ :=
  ⟨by decide,
    ((rel_path_spec sampleSched ⟨false, ["a.txt"]⟩).2 (by decide)).1
      ⟨false, ["a.txt"]⟩ (by decide)⟩

/-- Concrete scheduler with `out.txt` already interned as the output of a
command named `first`. -/
def sampleSchedOut : Scheduler :=
  { sampleSched with
      files := [⟨0, ⟨false, ["out.txt"]⟩,
        ⟨true, ["cwd", "razel-bin", "out.txt"]⟩, some 0, none⟩]
      path_to_file_id := [(⟨false, ["out.txt"]⟩, 0)]
      commands := [⟨0, "first", [], [0], .New, [], []⟩] }

theorem output_file_spec_witness :
    sampleSchedOut.rel_path ⟨false, ["out.txt"]⟩ = .ok ⟨false, ["out.txt"]⟩ ∧
    lookupPath sampleSchedOut.path_to_file_id ⟨false, ["out.txt"]⟩ = some 0 ∧
    (fileAt sampleSchedOut 0).creating_command = some 0 ∧
    sampleSchedOut.output_file ⟨false, ["out.txt"]⟩
      = .error ("File " ++ RPath.render ⟨false, ["out.txt"]⟩
          ++ " cannot be output of multiple commands, already output of "
          ++ (cmdAt sampleSchedOut 0).name) :=
  ⟨rfl, by decide, by decide,
    ((output_file_spec sampleSchedOut ⟨false, ["out.txt"]⟩
        ⟨false, ["out.txt"]⟩ rfl).1 0 (by decide)).1 0 (by decide)⟩

/-- Concrete scheduler holding one not-yet-claimed output file. -/
def sampleSchedPush : Scheduler :=
  { sampleSched with
      files := [⟨0, ⟨false, ["out.txt"]⟩,
        ⟨true, ["cwd", "razel-bin", "out.txt"]⟩, none, none⟩]
      path_to_file_id := [(⟨false, ["out.txt"]⟩, 0)] }

/-- Concrete builder declaring the file above as its output. -/
def sampleBuilder : CommandBuilder := ⟨"b", [], [0]⟩

theorem push_spec_witness :
    sampleBuilder.outputs.Nodup ∧
    (∀ fid ∈ sampleBuilder.outputs, fid < sampleSchedPush.files.length ∧
      (sampleSchedPush.files.getD fid default).creating_command = none) ∧
    (∃ s', sampleSchedPush.push sampleBuilder
        = some (s', sampleSchedPush.commands.length) ∧
      s'.commands = sampleSchedPush.commands
        ++ [sampleBuilder.build sampleSchedPush.commands.length] ∧
      s'.files.length = sampleSchedPush.files.length ∧
      (∀ fid ∈ sampleBuilder.outputs,
        (fileAt s' fid).creating_command
          = some sampleSchedPush.commands.length) ∧
      (∀ fid, fid ∉ sampleBuilder.outputs →
        s'.files[fid]? = sampleSchedPush.files[fid]?)) :=
  ⟨by decide, by decide,
    push_spec sampleSchedPush sampleBuilder (by decide) (by decide)⟩

/-- One registry operation as issued by builders: `input_file`,
`output_file`, or `executable` (the latter carrying its parsed path and
the external `which` result). -/
inductive RegOp where
  | input (arg : RPath)
  | output (arg : RPath)
  | exec (arg : String) (parsed : RPath) (whichResult : Except String RPath)
deriving Repr

/-- Applies one registry operation; on a builder error the scheduler state
is returned unchanged (the Rust functions mutate nothing on their error
paths). -/
def applyRegOp (s : Scheduler) : RegOp → Scheduler
  | .input arg =>
    match s.input_file arg with
    | .ok (s', _) => s'
    | .error _ => s
  | .output arg =>
    match s.output_file arg with
    | .ok (s', _) => s'
    | .error _ => s
  | .exec arg parsed whichResult =>
    match s.executable arg parsed whichResult with
    | .ok (s', _) => s'
    | .error _ => s

/-- A sequence of registry operations applied in order. -/
def runRegOps (s : Scheduler) (ops : List RegOp) : Scheduler :=
  ops.foldl applyRegOp s

/-- Registry invariant (amended form of spec §3 invariant 1): keys of
`path_to_file_id` are pairwise distinct; every interned file id appears
exactly once as a value; each entry's id is in range and its file's `path`
is either the key itself (input files) or `bin_dir` joined with the key
(output files). -/
def RegistryInv (bin : RPath) (files : List File)
    (m : List (RPath × FileId)) : Prop :=
  (m.map (·.1)).Nodup ∧
  (∀ kv ∈ m, kv.2 < files.length ∧
    ((files.getD kv.2 default).path = kv.1 ∨
     (files.getD kv.2 default).path = bin.join kv.1)) ∧
  (∀ fid < files.length,
    m.countP (fun kv => decide (kv.2 = fid)) = 1)

theorem lookupPath_eq_none (m : List (RPath × FileId)) (k : RPath)
    (h : lookupPath m k = none) : ∀ kv ∈ m, kv.1 ≠ k := by
  intro kv hmem
  have hfind : m.find? (fun kv => kv.1 = k) = none :=
    Option.map_eq_none'.mp h
  have := List.find?_eq_none.mp hfind kv hmem
  simpa using this

theorem RegistryInv.extend (bin : RPath) (files : List File)
    (m : List (RPath × FileId)) (rel : RPath) (f : File)
    (hinv : RegistryInv bin files m)
    (hfresh : lookupPath m rel = none)
    (hpath : f.path = rel ∨ f.path = bin.join rel) :
    RegistryInv bin (files ++ [f]) ((rel, files.length) :: m) := by
  obtain ⟨hkeys, hentries, hcounts⟩ := hinv
  have hkeyfresh := lookupPath_eq_none m rel hfresh
  refine ⟨?_, ?_, ?_⟩
  · rw [List.map_cons, List.nodup_cons]
    exact ⟨fun hmem => by
      obtain ⟨kv, hkv, hk⟩ := List.mem_map.mp hmem
      exact hkeyfresh kv hkv hk, hkeys⟩
  · intro kv hmem
    rcases List.mem_cons.mp hmem with h | h
    · subst h
      refine ⟨by simp, ?_⟩
      have : (files ++ [f]).getD files.length default = f := by
        rw [List.getD_eq_getElem?_getD, List.getElem?_concat_length]
        rfl
      rw [this]
      exact hpath
    · obtain ⟨hlt, hp⟩ := hentries kv h
      have hlt' : kv.2 < (files ++ [f]).length := by
        rw [List.length_append]
        exact Nat.lt_of_lt_of_le hlt (by simp)
      refine ⟨hlt', ?_⟩
      have : (files ++ [f]).getD kv.2 default = files.getD kv.2 default := by
        rw [List.getD_eq_getElem?_getD, List.getElem?_append_left hlt,
          ← List.getD_eq_getElem?_getD]
      rw [this]
      exact hp
  · intro fid hlt
    rw [List.countP_cons]
    rcases Nat.lt_succ_iff_lt_or_eq.mp (by simpa using hlt) with h | h
    · have hne : ¬ (files.length = fid) := by omega
      have hc := hcounts fid h
      simp only [decide_eq_false hne, Bool.false_eq_true, if_false,
        Nat.add_zero]
      exact hc
    · have hzero : m.countP (fun kv => decide (kv.2 = fid)) = 0 := by
        rw [List.countP_eq_zero]
        intro kv hkv
        have h2 := (hentries kv hkv).1
        simp only [decide_eq_true_eq]
        intro hc
        rw [hc, h] at h2
        exact lt_irrefl _ h2
      rw [hzero]
      simp [h]

theorem regInv_input_file (s s' : Scheduler) (arg : RPath) (id : FileId)
    (h : RegistryInv s.bin_dir s.files s.path_to_file_id)
    (heq : s.input_file arg = .ok (s', id)) :
    RegistryInv s'.bin_dir s'.files s'.path_to_file_id
      ∧ s'.bin_dir = s.bin_dir := by
  unfold Scheduler.input_file at heq
  split at heq
  · exact Except.noConfusion heq
  · rename_i rel hrel
    split at heq
    · rename_i id0 hlook
      injection heq with hpair
      injection hpair with h1 h2
      rw [← h1]
      exact ⟨h, rfl⟩
    · rename_i hlook
      injection heq with hpair
      injection hpair with h1 h2
      rw [← h1]
      exact ⟨RegistryInv.extend s.bin_dir s.files s.path_to_file_id rel
        ⟨s.files.length, arg, rel, none, none⟩ h hlook (Or.inl rfl), rfl⟩

theorem regInv_output_file (s s' : Scheduler) (arg : RPath) (id : FileId)
    (h : RegistryInv s.bin_dir s.files s.path_to_file_id)
    (heq : s.output_file arg = .ok (s', id)) :
    RegistryInv s'.bin_dir s'.files s'.path_to_file_id
      ∧ s'.bin_dir = s.bin_dir := by
  unfold Scheduler.output_file at heq
  split at heq
  · exact Except.noConfusion heq
  · rename_i rel hrel
    split at heq
    · rename_i fid hlook
      split at heq
      · exact Except.noConfusion heq
      · exact Except.noConfusion heq
    · rename_i hlook
      injection heq with hpair
      injection hpair with h1 h2
      rw [← h1]
      exact ⟨RegistryInv.extend s.bin_dir s.files s.path_to_file_id rel
        ⟨s.files.length, arg, s.bin_dir.join rel, none, none⟩ h hlook
        (Or.inr rfl), rfl⟩

theorem regInv_executable (s s' : Scheduler) (arg : String) (parsed : RPath)
    (whichResult : Except String RPath) (id : FileId)
    (h : RegistryInv s.bin_dir s.files s.path_to_file_id)
    (heq : s.executable arg parsed whichResult = .ok (s', id)) :
    RegistryInv s'.bin_dir s'.files s'.path_to_file_id := by
  unfold Scheduler.executable at heq
  split at heq
  · exact (regInv_input_file s s' parsed id h heq).1
  · split at heq
    · rename_i fid hwm
      injection heq with hpair
      injection hpair with h1 h2
      rw [← h1]
      exact h
    · rename_i hwm
      split at heq
      · exact Except.noConfusion heq
      · rename_i path
        split at heq
        · exact Except.noConfusion heq
        · rename_i t tid hin
          injection heq with hpair
          injection hpair with h1 h2
          rw [← h1]
          exact (regInv_input_file s t path tid h hin).1

theorem regInv_applyRegOp (s : Scheduler) (op : RegOp)
    (h : RegistryInv s.bin_dir s.files s.path_to_file_id) :
    RegistryInv (applyRegOp s op).bin_dir (applyRegOp s op).files
      (applyRegOp s op).path_to_file_id := by
  cases op with
  | input arg =>
    cases hin : s.input_file arg with
    | error e =>
      have hs : applyRegOp s (RegOp.input arg) = s := by
        simp only [applyRegOp]
        rw [hin]
      rw [hs]
      exact h
    | ok pair =>
      obtain ⟨t, tid⟩ := pair
      have hs : applyRegOp s (RegOp.input arg) = t := by
        simp only [applyRegOp]
        rw [hin]
      rw [hs]
      exact (regInv_input_file s t arg tid h hin).1
  | output arg =>
    cases hout : s.output_file arg with
    | error e =>
      have hs : applyRegOp s (RegOp.output arg) = s := by
        simp only [applyRegOp]
        rw [hout]
      rw [hs]
      exact h
    | ok pair =>
      obtain ⟨t, tid⟩ := pair
      have hs : applyRegOp s (RegOp.output arg) = t := by
        simp only [applyRegOp]
        rw [hout]
      rw [hs]
      exact (regInv_output_file s t arg tid h hout).1
  | exec arg parsed whichResult =>
    cases hex : s.executable arg parsed whichResult with
    | error e =>
      have hs : applyRegOp s (RegOp.exec arg parsed whichResult) = s := by
        simp only [applyRegOp]
        rw [hex]
      rw [hs]
      exact h
    | ok pair =>
      obtain ⟨t, tid⟩ := pair
      have hs : applyRegOp s (RegOp.exec arg parsed whichResult) = t := by
        simp only [applyRegOp]
        rw [hex]
      rw [hs]
      exact regInv_executable s t arg parsed whichResult tid h hex

/-- C9 (amended): after every sequence of `input_file` / `output_file` /
`executable` operations, the registry keys are pairwise distinct, each
interned file handle is reachable from exactly one key, that key is the
normalized workspace-relative path, and the file's `path` field equals the
key for input files and `bin_dir` joined with the key for output files
(for output files `File.path` itself is not a key of the map). -/
theorem registry_key_invariant (init : Scheduler) (ops : List RegOp)
    (h : RegistryInv init.bin_dir init.files init.path_to_file_id) :
    RegistryInv (runRegOps init ops).bin_dir (runRegOps init ops).files
      (runRegOps init ops).path_to_file_id := by
  induction ops generalizing init with
  | nil => exact h
  | cons op rest ih =>
    have hstep := regInv_applyRegOp init op h
    simpa [runRegOps] using ih (applyRegOp init op) hstep

theorem registry_key_invariant_witness :
    RegistryInv sampleSched.bin_dir sampleSched.files
      sampleSched.path_to_file_id ∧
    RegistryInv
      (runRegOps sampleSched [RegOp.input ⟨false, ["a.txt"]⟩,
        RegOp.output ⟨false, ["out.txt"]⟩]).bin_dir
      (runRegOps sampleSched [RegOp.input ⟨false, ["a.txt"]⟩,
        RegOp.output ⟨false, ["out.txt"]⟩]).files
      (runRegOps sampleSched [RegOp.input ⟨false, ["a.txt"]⟩,
        RegOp.output ⟨false, ["out.txt"]⟩]).path_to_file_id :=
  ⟨by constructor
      · decide
      · constructor
        · decide
        · decide,
    registry_key_invariant sampleSched
      [RegOp.input ⟨false, ["a.txt"]⟩, RegOp.output ⟨false, ["out.txt"]⟩]
      (by constructor
          · decide
          · constructor
            · decide
            · decide)⟩

/-- C9 counterexample: the claim as stated — every `File.path` appears
exactly once as a key of `path_to_file_id` — is false: after a single
`output_file` call the allocated file's `path` is `bin_dir/rel`, which
appears zero times among the keys (the key is the workspace-relative
path `rel`). -/
theorem registry_key_counterexample :
    ¬ (∀ f ∈ (runRegOps sampleSched
          [RegOp.output ⟨false, ["out.txt"]⟩]).files,
        (runRegOps sampleSched
            [RegOp.output ⟨false, ["out.txt"]⟩]).path_to_file_id.countP
          (fun kv => decide (kv.1 = f.path)) = 1) := by
  intro hall
  have hf := hall ⟨0, ⟨false, ["out.txt"]⟩,
    ⟨true, ["cwd", "razel-bin", "out.txt"]⟩, none, none⟩ (by decide)
  revert hf
  decide

/-- Model of `Vec::swap_remove(i)`: the last element moves into slot `i`
and the vector shrinks by one (order not preserved). -/
def swapRemove (l : List α) (i : Nat) : List α :=
  match l.getLast? with
  | none => l
  | some last => (l.set i last).dropLast

/-- Model of `HashSet::insert` on the waiting set. -/
def waitInsert (w : List CommandId) (id : CommandId) : List CommandId :=
  if id ∈ w then w else w ++ [id]

/-- Model of `Iterator::position`: index of the first occurrence. -/
def position (id : CommandId) : List CommandId → Option Nat
  | [] => none
  | x :: rest =>
    if x = id then some 0 else (position id rest).map (· + 1)

/-- Model of the inner input loop of `create_dependency_graph`
(`src/scheduler.rs:253-258`): collect `creating_command` of each input
file, in order; `none` models the arena index panic. -/
def depsOfInputs (files : List File) : List FileId → Option (List CommandId)
  | [] => some []
  | fid :: rest =>
    match files[fid]? with
    | none => none
    | some f =>
      match depsOfInputs files rest with
      | none => none
      | some ds =>
        match f.creating_command with
        | some dep => some (dep :: ds)
        | none => some ds

/-- Model of the per-command pass of `create_dependency_graph`
(`src/scheduler.rs:251-266`): for each command (in arena order), assert the
state is `New`, extend `unfinished_deps` with its producers, record reverse
edges, and classify the command as `Ready` (appended to the FIFO queue) or
`Waiting` (inserted into the set). -/
def classifyAll (files : List File) :
    List Nat → List Command → List CommandId → List CommandId →
    List (CommandId × CommandId) →
    Option (List Command × List CommandId × List CommandId
      × List (CommandId × CommandId))
  | [], cmds, ready, waiting, rdeps => some (cmds, ready, waiting, rdeps)
  | i :: rest, cmds, ready, waiting, rdeps =>
    match cmds[i]? with
    | none => none
    | some c =>
      if c.schedule_state = .New then
        match depsOfInputs files c.inputs with
        | none => none
        | some deps =>
          let c' := { c with unfinished_deps := c.unfinished_deps ++ deps }
          let rdeps' := rdeps ++ deps.map (fun d => (d, c.id))
          if c'.unfinished_deps.isEmpty then
            classifyAll files rest
              (cmds.set i { c' with schedule_state := .Ready })
              (ready ++ [c'.id]) waiting rdeps'
          else
            classifyAll files rest
              (cmds.set i { c' with schedule_state := .Waiting })
              ready (waitInsert waiting c'.id) rdeps'
      else none

/-- Model of the reverse-edge flush of `create_dependency_graph`
(`src/scheduler.rs:267-269`). -/
def flushRdeps : List (CommandId × CommandId) → List Command →
    Option (List Command)
  | [], cmds => some cmds
  | (id, r) :: rest, cmds =>
    match cmds[id]? with
    | none => none
    | some c =>
      flushRdeps rest (cmds.set id { c with reverse_deps := c.reverse_deps ++ [r] })

/-- Model of `Scheduler::check_for_circular_dependencies`
(`src/scheduler.rs:274-276`): the body is an empty `// TODO`. -/
def Scheduler.check_for_circular_dependencies (_ : Scheduler) : Unit := ()

/-- Model of `Scheduler::create_dependency_graph`
(`src/scheduler.rs:247-272`).  The trailing `assert!(!ready.is_empty())`
is the only cycle check actually performed; its failure (a panic, not an
error value) is modelled by `none`. -/
def Scheduler.create_dependency_graph (s : Scheduler) : Option Scheduler :=
  match classifyAll s.files (List.range s.commands.length) s.commands
      s.ready s.waiting [] with
  | none => none
  | some (cmds, ready, waiting, rdeps) =>
    match flushRdeps rdeps cmds with
    | none => none
    | some cmds' =>
      let _ := s.check_for_circular_dependencies
      if ready.isEmpty then none
      else some { s with commands := cmds', ready := ready, waiting := waiting }

/-- Model of the rdep loop of `on_command_succeeded`
(`src/scheduler.rs:405-416`): for each reverse dependency (of the cloned
list), assert it is `Waiting` with non-empty deps, swap-remove the
completing command from its `unfinished_deps` (at the first position,
`position().unwrap()`), and when the deps become empty mark it `Ready`,
remove it from `waiting` and append it to `ready`. -/
def processRdeps (id : CommandId) :
    List CommandId → List Command → List CommandId → List CommandId →
    Option (List Command × List CommandId × List CommandId)
  | [], cmds, waiting, ready => some (cmds, waiting, ready)
  | rdepId :: rest, cmds, waiting, ready =>
    match cmds[rdepId]? with
    | none => none
    | some rdep =>
      if rdep.schedule_state = .Waiting then
        if rdep.unfinished_deps.isEmpty then none
        else
          match position id rdep.unfinished_deps with
          | none => none
          | some i =>
            if (swapRemove rdep.unfinished_deps i).isEmpty then
              processRdeps id rest
                (cmds.set rdepId
                  { rdep with
                      unfinished_deps := swapRemove rdep.unfinished_deps i,
                      schedule_state := .Ready })
                (waiting.erase rdepId) (ready ++ [rdepId])
            else
              processRdeps id rest
                (cmds.set rdepId
                  { rdep with
                      unfinished_deps := swapRemove rdep.unfinished_deps i })
                waiting ready
      else none

/-- Model of `Scheduler::on_command_succeeded` (`src/scheduler.rs:400-417`):
push to `succeeded`, set state `Succeeded`, then process the snapshot of
`reverse_deps`. -/
def Scheduler.on_command_succeeded (s : Scheduler) (id : CommandId) :
    Option Scheduler :=
  match s.commands[id]? with
  | none => none
  | some c =>
    match processRdeps id c.reverse_deps
        (s.commands.set id { c with schedule_state := .Succeeded })
        s.waiting s.ready with
    | none => none
    | some (cmds', waiting', ready') =>
      some { s with succeeded := s.succeeded ++ [id], commands := cmds',
                    waiting := waiting', ready := ready' }

/-- Model of `Scheduler::on_command_failed` (`src/scheduler.rs:419-423`):
push to `failed` and log; notably neither the command's `schedule_state`
nor its reverse dependencies are touched. -/
def Scheduler.on_command_failed (s : Scheduler) (id : CommandId) :
    Option Scheduler :=
  match s.commands[id]? with
  | none => none
  | some _ => some { s with failed := s.failed ++ [id] }

/-- Model of `Scheduler::on_command_finished` (`src/scheduler.rs:377-397`):
decrement `running` (here: drop the finished id from the in-flight list;
the external sandbox harvest is omitted) and dispatch on
`ExecutionResult::success()`. -/
def Scheduler.on_command_finished (s : Scheduler) (id : CommandId)
    (success : Bool) : Option Scheduler :=
  let s1 := { s with running := s.running.erase id }
  if success then s1.on_command_succeeded id else s1.on_command_failed id

/-- Model of `Scheduler::start_next_command` (`src/scheduler.rs:348-375`):
increment `running` (append the id to the in-flight list) and assert the
command is `Ready` with no unfinished deps; the spawned task itself is
external. -/
def Scheduler.start_next_command (s : Scheduler) (id : CommandId) :
    Option Scheduler :=
  let s1 := { s with running := s.running ++ [id] }
  match s1.commands[id]? with
  | none => none
  | some c =>
    if c.schedule_state = .Ready then
      if c.unfinished_deps.length = 0 then some s1 else none
    else none

/-- Fuel-indexed model of the dispatch loop of `start_ready_commands`
(`src/scheduler.rs:341-346`): while `running < worker_threads` and `ready`
is non-empty, pop the front of `ready` and start it. -/
def startReadyAux : Nat → Scheduler → Option Scheduler
  | 0, s => some s
  | fuel+1, s =>
    if s.running.length < s.worker_threads then
      match s.ready with
      | [] => some s
      | id :: rest =>
        match Scheduler.start_next_command { s with ready := rest } id with
        | none => none
        | some s' => startReadyAux fuel s'
    else some s

/-- Model of `Scheduler::start_ready_commands`; `ready.length` fuel is
exactly enough since every iteration pops one element of `ready` and no
iteration pushes one. -/
def Scheduler.start_ready_commands (s : Scheduler) : Option Scheduler :=
  startReadyAux s.ready.length s

/-- Result assembled by `run` after the loop (`src/scheduler.rs:157-161`). -/
def Scheduler.schedulerResult (s : Scheduler) : SchedulerResult :=
  ⟨s.succeeded.length, s.failed.length, s.waiting.length + s.ready.length⟩

/-- One iteration of the execution loop of `run`
(`src/scheduler.rs:151-156`): receive the completion of some in-flight
command (the arrival order is the scheduler's nondeterminism; `exec` is
the external executor's verdict), process it, then refill the worker pool
from the ready queue. -/
inductive RunStep (exec : CommandId → Bool) : Scheduler → Scheduler → Prop
  | finish {s s2 : Scheduler} (id : CommandId) (s1 : Scheduler) :
      id ∈ s.running →
      s.on_command_finished id (exec id) = some s1 →
      s1.start_ready_commands = some s2 →
      RunStep exec s s2

/-- Number of occurrences of a command id across the five bookkeeping
lists of the execution loop. -/
def occCount (ready waiting running succeeded failed : List CommandId)
    (id : CommandId) : Nat :=
  ready.count id + waiting.count id + running.count id
    + succeeded.count id + failed.count id

/-- Execution-loop invariant (spec §3 invariants 4/5, adapted to the
code): every command sits in exactly one of `ready`, `waiting`, `running`,
`succeeded`, `failed`; queue members are in range; members of `ready`,
`running` and — because `on_command_failed` never assigns the `Failed`
state — also `failed` are in state `Ready`, members of `waiting` in
`Waiting` and members of `succeeded` in `Succeeded`. -/
structure InvC (cmds : List Command)
    (ready waiting running succeeded failed : List CommandId) : Prop where
  occ : ∀ id < cmds.length,
    occCount ready waiting running succeeded failed id = 1
  mem_lt : ∀ id ∈ ready ++ waiting ++ running ++ succeeded ++ failed,
    id < cmds.length
  ready_state : ∀ id ∈ ready, (cmds.getD id default).schedule_state = .Ready
  waiting_state : ∀ id ∈ waiting,
    (cmds.getD id default).schedule_state = .Waiting
  running_state : ∀ id ∈ running,
    (cmds.getD id default).schedule_state = .Ready
  succ_state : ∀ id ∈ succeeded,
    (cmds.getD id default).schedule_state = .Succeeded
  failed_state : ∀ id ∈ failed,
    (cmds.getD id default).schedule_state = .Ready

/-- The loop invariant on a whole scheduler state. -/
def SchedInv (s : Scheduler) : Prop :=
  InvC s.commands s.ready s.waiting s.running s.succeeded s.failed

theorem getD_set_self {α} [Inhabited α] (l : List α) (i : Nat) (a : α)
    (h : i < l.length) : (l.set i a).getD i default = a := by
  rw [List.getD_eq_getElem?_getD, List.getElem?_set_self h]
  rfl

theorem getD_set_ne {α} [Inhabited α] (l : List α) (i j : Nat) (a : α)
    (h : i ≠ j) : (l.set i a).getD j default = l.getD j default := by
  rw [List.getD_eq_getElem?_getD, List.getElem?_set_ne h,
    ← List.getD_eq_getElem?_getD]

theorem invC_waiting_counts
    {cmds : List Command} {ready waiting running succeeded failed : List Nat}
    (hinv : InvC cmds ready waiting running succeeded failed)
    {id : Nat} (hlt : id < cmds.length)
    (hw : (cmds.getD id default).schedule_state = .Waiting) :
    waiting.count id = 1 ∧ ready.count id = 0 ∧ running.count id = 0 ∧
      succeeded.count id = 0 ∧ failed.count id = 0 := by
  have hocc := hinv.occ id hlt
  unfold occCount at hocc
  have hr : ready.count id = 0 := by
    by_contra h
    have hmem : id ∈ ready := List.count_pos_iff.mp (Nat.pos_of_ne_zero h)
    have := hinv.ready_state id hmem
    rw [hw] at this
    exact ScheduleState.noConfusion this
  have hrun : running.count id = 0 := by
    by_contra h
    have hmem : id ∈ running := List.count_pos_iff.mp (Nat.pos_of_ne_zero h)
    have := hinv.running_state id hmem
    rw [hw] at this
    exact ScheduleState.noConfusion this
  have hs : succeeded.count id = 0 := by
    by_contra h
    have hmem : id ∈ succeeded := List.count_pos_iff.mp (Nat.pos_of_ne_zero h)
    have := hinv.succ_state id hmem
    rw [hw] at this
    exact ScheduleState.noConfusion this
  have hf : failed.count id = 0 := by
    by_contra h
    have hmem : id ∈ failed := List.count_pos_iff.mp (Nat.pos_of_ne_zero h)
    have := hinv.failed_state id hmem
    rw [hw] at this
    exact ScheduleState.noConfusion this
  omega

theorem invC_counts_of_mem
    {cmds : List Command} {ready waiting running succeeded failed : List Nat}
    (hinv : InvC cmds ready waiting running succeeded failed)
    {id : Nat} (hmem : id ∈ running) :
    running.count id = 1 ∧ ready.count id = 0 ∧ waiting.count id = 0 ∧
      succeeded.count id = 0 ∧ failed.count id = 0 := by
  have hlt : id < cmds.length := hinv.mem_lt id (by simp [hmem])
  have hocc := hinv.occ id hlt
  unfold occCount at hocc
  have hpos : 0 < running.count id := List.count_pos_iff.mpr hmem
  omega

theorem invC_move
    {cmds : List Command} {ready waiting running succeeded failed : List Nat}
    (hinv : InvC cmds ready waiting running succeeded failed)
    {rdepId : Nat} (hlt : rdepId < cmds.length)
    (hw : (cmds.getD rdepId default).schedule_state = .Waiting)
    (rdep' : Command) (hstate' : rdep'.schedule_state = .Ready) :
    InvC (cmds.set rdepId rdep') (ready ++ [rdepId]) (waiting.erase rdepId)
      running succeeded failed := by
  obtain ⟨hwc, hrc, hruc, hsc, hfc⟩ := invC_waiting_counts hinv hlt hw
  have hnotready : rdepId ∉ ready := List.count_eq_zero.mp hrc
  have hnotrun : rdepId ∉ running := List.count_eq_zero.mp hruc
  have hnotsucc : rdepId ∉ succeeded := List.count_eq_zero.mp hsc
  have hnotfail : rdepId ∉ failed := List.count_eq_zero.mp hfc
  have hnoterase : rdepId ∉ waiting.erase rdepId := by
    rw [← List.count_eq_zero, List.count_erase_self]
    omega
  refine ⟨?_, ?_, ?_, ?_, ?_, ?_, ?_⟩
  · intro id hid
    have hocc := hinv.occ id (by simpa using hid)
    unfold occCount at hocc ⊢
    by_cases h : id = rdepId
    · subst h
      rw [List.count_append, List.count_singleton, List.count_erase_self]
      simp only [beq_self_eq_true, if_true]
      omega
    · rw [List.count_append, List.count_singleton,
        List.count_erase_of_ne h]
      have : ¬ ((rdepId == id) = true) := by
        simp only [beq_iff_eq]
        exact fun hh => h hh.symm
      rw [if_neg this]
      omega
  · intro id hid
    simp only [List.mem_append, List.mem_singleton] at hid
    rw [List.length_set]
    rcases hid with ((((h | h) | h) | h) | h) | h
    · exact hinv.mem_lt id (by simp [h])
    · exact h ▸ hlt
    · exact hinv.mem_lt id (by simp [List.mem_of_mem_erase h])
    · exact hinv.mem_lt id (by simp [h])
    · exact hinv.mem_lt id (by simp [h])
    · exact hinv.mem_lt id (by simp [h])
  · intro id hid
    rcases List.mem_append.mp hid with h | h
    · have hne : rdepId ≠ id := fun hh => hnotready (hh ▸ h)
      rw [getD_set_ne cmds rdepId id rdep' hne]
      exact hinv.ready_state id h
    · have : id = rdepId := by simpa using h
      subst this
      rw [getD_set_self cmds id rdep' hlt]
      exact hstate'
  · intro id hid
    have hne : rdepId ≠ id := fun hh => hnoterase (hh ▸ hid)
    rw [getD_set_ne cmds rdepId id rdep' hne]
    exact hinv.waiting_state id (List.mem_of_mem_erase hid)
  · intro id hid
    have hne : rdepId ≠ id := fun hh => hnotrun (hh ▸ hid)
    rw [getD_set_ne cmds rdepId id rdep' hne]
    exact hinv.running_state id hid
  · intro id hid
    have hne : rdepId ≠ id := fun hh => hnotsucc (hh ▸ hid)
    rw [getD_set_ne cmds rdepId id rdep' hne]
    exact hinv.succ_state id hid
  · intro id hid
    have hne : rdepId ≠ id := fun hh => hnotfail (hh ▸ hid)
    rw [getD_set_ne cmds rdepId id rdep' hne]
    exact hinv.failed_state id hid

theorem invC_stay
    {cmds : List Command} {ready waiting running succeeded failed : List Nat}
    (hinv : InvC cmds ready waiting running succeeded failed)
    {rdepId : Nat} (hlt : rdepId < cmds.length)
    (hw : (cmds.getD rdepId default).schedule_state = .Waiting)
    (rdep' : Command) (hstate' : rdep'.schedule_state = .Waiting) :
    InvC (cmds.set rdepId rdep') ready waiting running succeeded failed := by
  obtain ⟨hwc, hrc, hruc, hsc, hfc⟩ := invC_waiting_counts hinv hlt hw
  have hnotready : rdepId ∉ ready := List.count_eq_zero.mp hrc
  have hnotrun : rdepId ∉ running := List.count_eq_zero.mp hruc
  have hnotsucc : rdepId ∉ succeeded := List.count_eq_zero.mp hsc
  have hnotfail : rdepId ∉ failed := List.count_eq_zero.mp hfc
  refine ⟨?_, ?_, ?_, ?_, ?_, ?_, ?_⟩
  · intro id hid
    exact hinv.occ id (by simpa using hid)
  · intro id hid
    rw [List.length_set]
    exact hinv.mem_lt id hid
  · intro id hid
    have hne : rdepId ≠ id := fun hh => hnotready (hh ▸ hid)
    rw [getD_set_ne cmds rdepId id rdep' hne]
    exact hinv.ready_state id hid
  · intro id hid
    by_cases h : id = rdepId
    · subst h
      rw [getD_set_self cmds id rdep' hlt]
      exact hstate'
    · rw [getD_set_ne cmds rdepId id rdep' (fun hh => h hh.symm)]
      exact hinv.waiting_state id hid
  · intro id hid
    have hne : rdepId ≠ id := fun hh => hnotrun (hh ▸ hid)
    rw [getD_set_ne cmds rdepId id rdep' hne]
    exact hinv.running_state id hid
  · intro id hid
    have hne : rdepId ≠ id := fun hh => hnotsucc (hh ▸ hid)
    rw [getD_set_ne cmds rdepId id rdep' hne]
    exact hinv.succ_state id hid
  · intro id hid
    have hne : rdepId ≠ id := fun hh => hnotfail (hh ▸ hid)
    rw [getD_set_ne cmds rdepId id rdep' hne]
    exact hinv.failed_state id hid

theorem getLast?_decomp {α} (l : List α) (last : α)
    (h : l.getLast? = some last) : l.dropLast ++ [last] = l := by
  have hne : l ≠ [] := by
    intro hnil
    rw [hnil] at h
    exact Option.noConfusion h
  have heq : l.getLast hne = last := by
    rw [List.getLast?_eq_getLast l hne] at h
    injection h
  rw [← heq]
  exact List.dropLast_append_getLast hne

theorem position_spec (id : CommandId) :
    ∀ (l : List CommandId) (i : Nat), position id l = some i →
      i < l.length ∧ l.getD i 0 = id := by
  intro l
  induction l with
  | nil =>
    intro i h
    exact absurd h (by simp [position])
  | cons x rest ih =>
    intro i h
    unfold position at h
    by_cases hx : x = id
    · rw [if_pos hx] at h
      injection h with h
      subst h
      exact ⟨by simp, by simpa using hx⟩
    · rw [if_neg hx] at h
      cases hp : position id rest with
      | none =>
        rw [hp] at h
        exact absurd h (by simp)
      | some j =>
        rw [hp] at h
        simp only [Option.map_some', Option.some.injEq] at h
        obtain ⟨hj1, hj2⟩ := ih j hp
        subst h
        refine ⟨by simp; omega, ?_⟩
        rw [List.getD_cons_succ]
        exact hj2

theorem length_swapRemove (l : List Nat) (i : Nat) (h : i < l.length) :
    (swapRemove l i).length + 1 = l.length := by
  unfold swapRemove
  cases hl : l.getLast? with
  | none =>
    rw [List.getLast?_eq_none] at hl
    rw [hl] at h
    exact absurd h (by simp)
  | some last =>
    rw [List.length_dropLast, List.length_set]
    omega

theorem count_swapRemove (l : List Nat) :
    ∀ (i : Nat) (x : Nat), i < l.length →
    (swapRemove l i).count x + (if l.getD i 0 = x then 1 else 0)
      = l.count x := by
  induction l with
  | nil =>
    intro i x h
    exact absurd h (by simp)
  | cons a t ih =>
    intro i x h
    cases i with
    | zero =>
      cases t with
      | nil =>
        simp only [swapRemove, List.getLast?_singleton, List.set_cons_zero,
          List.dropLast_single, List.getD_cons_zero]
        rw [List.count_nil, List.count_singleton]
        by_cases hax : a = x
        · simp [hax]
        · simp [hax, fun hh => hax (by simpa using hh)]
      | cons b t' =>
        cases hlast : (b :: t').getLast? with
        | none => exact absurd hlast (by simp [List.getLast?_eq_none])
        | some last =>
          have hlast2 : (a :: b :: t').getLast? = some last := by
            rw [List.getLast?_cons_cons]
            exact hlast
          have hdecomp := getLast?_decomp (b :: t') last hlast
          unfold swapRemove
          rw [hlast2]
          dsimp only
          rw [List.set_cons_zero, List.getD_cons_zero]
          have hbt : (last :: b :: t').dropLast = last :: (b :: t').dropLast := by
            exact List.dropLast_cons₂
          rw [hbt]
          have hcount : (b :: t').count x
              = (b :: t').dropLast.count x
                + (if last = x then 1 else 0) := by
            conv_lhs => rw [← hdecomp]
            rw [List.count_append, List.count_singleton]
            by_cases hlx : last = x
            · simp [hlx]
            · simp [hlx, fun hh => hlx (by simpa using hh)]
          rw [List.count_cons, List.count_cons]
          by_cases hax : a = x
          · simp only [hax, beq_self_eq_true, if_true]
            rw [hcount]
            by_cases hlx : last = x
            · simp [hlx]
            · simp [hlx]
          · have hax' : ¬ ((a == x) = true) := by
              simpa using hax
            simp only [hax', if_false, if_neg hax]
            rw [hcount]
            by_cases hlx : last = x
            · simp [hlx]
            · simp [hlx]
    | succ j =>
      have hj : j < t.length := by simpa using h
      have htne : t ≠ [] := by
        intro hnil
        rw [hnil] at hj
        exact absurd hj (by simp)
      cases hlast : t.getLast? with
      | none => exact absurd (List.getLast?_eq_none.mp hlast) htne
      | some last =>
        have hlast2 : (a :: t).getLast? = some last := by
          cases t with
          | nil => exact absurd rfl htne
          | cons b t' =>
            rw [List.getLast?_cons_cons]
            exact hlast
        unfold swapRemove
        rw [hlast2]
        dsimp only
        rw [List.set_cons_succ, List.getD_cons_succ]
        have hsetne : t.set j last ≠ [] := by
          intro hnil
          have := congrArg List.length hnil
          rw [List.length_set] at this
          rw [List.length_eq_zero.mp this] at hj
          exact absurd hj (by simp)
        have hdl : (a :: t.set j last).dropLast
            = a :: (t.set j last).dropLast := by
          cases hst : t.set j last with
          | nil => exact absurd hst hsetne
          | cons c t'' => exact List.dropLast_cons₂
        rw [hdl, List.count_cons, List.count_cons]
        have hih := ih j x hj
        unfold swapRemove at hih
        rw [hlast] at hih
        dsimp only at hih
        omega

theorem getD_of_getElem? {α} [Inhabited α] {l : List α} {i : Nat} {a : α}
    (h : l[i]? = some a) : i < l.length ∧ l.getD i default = a := by
  have hlt : i < l.length := by
    by_contra hge
    rw [List.getElem?_eq_none (by omega)] at h
    exact Option.noConfusion h
  refine ⟨hlt, ?_⟩
  rw [List.getD_eq_getElem?_getD, h]
  rfl

theorem processRdeps_waiting (idc : CommandId) :
    ∀ (rd : List CommandId) (cmds : List Command)
      (waiting ready : List CommandId)
      (out : List Command × List CommandId × List CommandId),
    processRdeps idc rd cmds waiting ready = some out →
    ∀ c ∈ rd, (cmds.getD c default).schedule_state = .Waiting := by
  intro rd
  induction rd with
  | nil =>
    intro _ _ _ _ _ c hc
    exact absurd hc (by simp)
  | cons rdepId rest ih =>
    intro cmds waiting ready out heq c hc
    unfold processRdeps at heq
    cases hget : cmds[rdepId]? with
    | none =>
      rw [hget] at heq
      exact Option.noConfusion heq
    | some rdep =>
      rw [hget] at heq
      dsimp only at heq
      obtain ⟨hlt, hgetD⟩ := getD_of_getElem? hget
      by_cases hstate : rdep.schedule_state = ScheduleState.Waiting
      case neg =>
        rw [if_neg hstate] at heq
        exact Option.noConfusion heq
      rw [if_pos hstate] at heq
      by_cases hemp : rdep.unfinished_deps.isEmpty = true
      case pos =>
        rw [if_pos hemp] at heq
        exact Option.noConfusion heq
      rw [if_neg hemp] at heq
      cases hpos : position idc rdep.unfinished_deps with
      | none =>
        rw [hpos] at heq
        exact Option.noConfusion heq
      | some i =>
        rw [hpos] at heq
        dsimp only at heq
        rcases List.mem_cons.mp hc with hceq | hcrest
        · subst hceq
          rw [hgetD]
          exact hstate
        · by_cases hu : (swapRemove rdep.unfinished_deps i).isEmpty = true
          · rw [if_pos hu] at heq
            have hmid := ih _ _ _ _ heq c hcrest
            by_cases hcr : c = rdepId
            · subst hcr
              rw [getD_set_self _ _ _ hlt] at hmid
              exact absurd hmid (by simp)
            · rw [getD_set_ne _ _ _ _ (fun hh => hcr hh.symm)] at hmid
              exact hmid
          · rw [if_neg hu] at heq
            have hmid := ih _ _ _ _ heq c hcrest
            by_cases hcr : c = rdepId
            · subst hcr
              rw [getD_set_self _ _ _ hlt] at hmid
              rw [hgetD]
              exact hmid
            · rw [getD_set_ne _ _ _ _ (fun hh => hcr hh.symm)] at hmid
              exact hmid

theorem processRdeps_spec (idc : CommandId)
    (running succeeded failed : List CommandId) :
    ∀ (rd : List CommandId) (cmds : List Command)
      (waiting ready : List CommandId)
      (cmds' : List Command) (waiting' ready' : List CommandId),
    processRdeps idc rd cmds waiting ready = some (cmds', waiting', ready') →
    InvC cmds ready waiting running succeeded failed →
    InvC cmds' ready' waiting' running succeeded failed ∧
    cmds'.length = cmds.length ∧
    (∀ c, c ∉ rd → cmds'.getD c default = cmds.getD c default) ∧
    (∃ newly, ready' = ready ++ newly ∧ ∀ c ∈ newly, c ∈ rd) ∧
    (∀ c ∈ rd,
      (cmds'.getD c default).unfinished_deps.count idc + rd.count c
          = (cmds.getD c default).unfinished_deps.count idc ∧
      (∀ x, x ≠ idc → (cmds'.getD c default).unfinished_deps.count x
          = (cmds.getD c default).unfinished_deps.count x) ∧
      (cmds'.getD c default).unfinished_deps.length + rd.count c
          = (cmds.getD c default).unfinished_deps.length ∧
      (cmds'.getD c default).reverse_deps
          = (cmds.getD c default).reverse_deps ∧
      (cmds'.getD c default).schedule_state
          = (if (cmds'.getD c default).unfinished_deps.isEmpty = true
             then ScheduleState.Ready else ScheduleState.Waiting)) := by
  intro rd
  induction rd with
  | nil =>
    intro cmds waiting ready cmds' waiting' ready' heq hinv
    unfold processRdeps at heq
    injection heq with h
    rw [Prod.mk.injEq, Prod.mk.injEq] at h
    obtain ⟨h1, h2, h3⟩ := h
    subst h1
    subst h2
    subst h3
    exact ⟨hinv, rfl, fun c _ => rfl, ⟨[], by simp, by simp⟩, by simp⟩
  | cons rdepId rest ih =>
    intro cmds waiting ready cmds' waiting' ready' heq hinv
    unfold processRdeps at heq
    cases hget : cmds[rdepId]? with
    | none =>
      rw [hget] at heq
      exact Option.noConfusion heq
    | some rdep =>
      rw [hget] at heq
      dsimp only at heq
      obtain ⟨hlt, hgetD⟩ := getD_of_getElem? hget
      by_cases hstate : rdep.schedule_state = ScheduleState.Waiting
      case neg =>
        rw [if_neg hstate] at heq
        exact Option.noConfusion heq
      rw [if_pos hstate] at heq
      by_cases hemp : rdep.unfinished_deps.isEmpty = true
      case pos =>
        rw [if_pos hemp] at heq
        exact Option.noConfusion heq
      rw [if_neg hemp] at heq
      cases hpos : position idc rdep.unfinished_deps with
      | none =>
        rw [hpos] at heq
        exact Option.noConfusion heq
      | some i =>
        rw [hpos] at heq
        dsimp only at heq
        obtain ⟨hilt, hgeti⟩ := position_spec idc rdep.unfinished_deps i hpos
        have hcnt_id := count_swapRemove rdep.unfinished_deps i idc hilt
        rw [if_pos hgeti] at hcnt_id
        have hcnt_ne : ∀ x, x ≠ idc →
            (swapRemove rdep.unfinished_deps i).count x
              = rdep.unfinished_deps.count x := by
          intro x hx
          have hcs := count_swapRemove rdep.unfinished_deps i x hilt
          have hne2 : ¬ (rdep.unfinished_deps.getD i 0 = x) := by
            rw [hgeti]
            exact fun hh => hx hh.symm
          rw [if_neg hne2] at hcs
          omega
        have hlen_u := length_swapRemove rdep.unfinished_deps i hilt
        have hwstate : (cmds.getD rdepId default).schedule_state
            = ScheduleState.Waiting := by
          rw [hgetD]
          exact hstate
        by_cases hu : (swapRemove rdep.unfinished_deps i).isEmpty = true
        · -- the reverse dependency becomes Ready
          rw [if_pos hu] at heq
          have hmid := invC_move hinv hlt hwstate
            { rdep with unfinished_deps := swapRemove rdep.unfinished_deps i,
                        schedule_state := ScheduleState.Ready } rfl
          obtain ⟨hInv', hlen', hunch, ⟨newly, hrdy, hnew⟩, hmem⟩ :=
            ih _ _ _ _ _ _ heq hmid
          have hnotrest : rdepId ∉ rest := by
            intro hmem2
            have hW := processRdeps_waiting idc rest _ _ _ _ heq rdepId hmem2
            rw [getD_set_self _ _ _ hlt] at hW
            exact absurd hW (by simp)
          have hfinal_rdep : cmds'.getD rdepId default
              = { rdep with
                    unfinished_deps := swapRemove rdep.unfinished_deps i,
                    schedule_state := ScheduleState.Ready } := by
            rw [hunch rdepId hnotrest, getD_set_self _ _ _ hlt]
          refine ⟨hInv', by rw [hlen']; simp, ?_, ?_, ?_⟩
          · intro c hc
            have hcr : c ≠ rdepId := fun hh => hc (by simp [hh])
            have hcrest : c ∉ rest := fun hh => hc (by simp [hh])
            rw [hunch c hcrest, getD_set_ne _ _ _ _ (fun hh => hcr hh.symm)]
          · refine ⟨rdepId :: newly, by simpa using hrdy, ?_⟩
            intro c hc
            rcases List.mem_cons.mp hc with h | h
            · simp [h]
            · simp [hnew c h]
          · intro c hc
            by_cases hcr : c = rdepId
            · subst hcr
              refine ⟨?_, ?_, ?_, ?_, ?_⟩
              · rw [hfinal_rdep, hgetD, List.count_cons]
                simp only [beq_self_eq_true, if_true,
                  List.count_eq_zero.mpr hnotrest]
                omega
              · intro x hx
                rw [hfinal_rdep, hgetD]
                exact hcnt_ne x hx
              · rw [hfinal_rdep, hgetD, List.count_cons]
                simp only [beq_self_eq_true, if_true,
                  List.count_eq_zero.mpr hnotrest]
                omega
              · rw [hfinal_rdep, hgetD]
              · rw [hfinal_rdep]
                dsimp only
                rw [if_pos hu]
            · have hcrest : c ∈ rest := by
                rcases List.mem_cons.mp hc with h | h
                · exact absurd h hcr
                · exact h
              have hcne : rdepId ≠ c := fun hh => hcr hh.symm
              obtain ⟨hm1, hm2, hm3, hm4, hm5⟩ := hmem c hcrest
              rw [getD_set_ne _ _ _ _ hcne] at hm1 hm2 hm3 hm4
              have hcountc : (rdepId :: rest).count c = rest.count c := by
                rw [List.count_cons]
                have : ¬ ((rdepId == c) = true) := by simpa using hcne
                simp [this]
              refine ⟨?_, hm2, ?_, hm4, hm5⟩
              · rw [hcountc]
                exact hm1
              · rw [hcountc]
                exact hm3
        · -- the reverse dependency stays Waiting
          rw [if_neg hu] at heq
          have hmid := invC_stay hinv hlt hwstate
            { rdep with unfinished_deps := swapRemove rdep.unfinished_deps i }
            hstate
          obtain ⟨hInv', hlen', hunch, ⟨newly, hrdy, hnew⟩, hmem⟩ :=
            ih _ _ _ _ _ _ heq hmid
          refine ⟨hInv', by rw [hlen']; simp, ?_, ?_, ?_⟩
          · intro c hc
            have hcr : c ≠ rdepId := fun hh => hc (by simp [hh])
            have hcrest : c ∉ rest := fun hh => hc (by simp [hh])
            rw [hunch c hcrest, getD_set_ne _ _ _ _ (fun hh => hcr hh.symm)]
          · refine ⟨newly, hrdy, ?_⟩
            intro c hc
            simp [hnew c hc]
          · intro c hc
            by_cases hcr : c = rdepId
            · subst hcr
              by_cases hcrest : c ∈ rest
              · obtain ⟨hm1, hm2, hm3, hm4, hm5⟩ := hmem c hcrest
                rw [getD_set_self _ _ _ hlt] at hm1 hm2 hm3 hm4
                dsimp only at hm1 hm2 hm3 hm4
                have hcountc : (c :: rest).count c = rest.count c + 1 := by
                  rw [List.count_cons]
                  simp
                refine ⟨?_, ?_, ?_, ?_, hm5⟩
                · rw [hcountc, hgetD]
                  omega
                · intro x hx
                  rw [hm2 x hx, hgetD]
                  exact hcnt_ne x hx
                · rw [hcountc, hgetD]
                  omega
                · rw [hm4, hgetD]
              · have hfinal_c : cmds'.getD c default
                    = { rdep with
                          unfinished_deps
                            := swapRemove rdep.unfinished_deps i } := by
                  rw [hunch c hcrest, getD_set_self _ _ _ hlt]
                have hcountc : (c :: rest).count c = 1 := by
                  rw [List.count_cons]
                  simp [List.count_eq_zero.mpr hcrest]
                refine ⟨?_, ?_, ?_, ?_, ?_⟩
                · rw [hfinal_c, hgetD, hcountc]
                  dsimp only
                  omega
                · intro x hx
                  rw [hfinal_c, hgetD]
                  dsimp only
                  exact hcnt_ne x hx
                · rw [hfinal_c, hgetD, hcountc]
                  dsimp only
                  omega
                · rw [hfinal_c, hgetD]
                · rw [hfinal_c]
                  dsimp only
                  rw [if_neg hu]
                  exact hstate
            · have hcrest : c ∈ rest := by
                rcases List.mem_cons.mp hc with h | h
                · exact absurd h hcr
                · exact h
              have hcne : rdepId ≠ c := fun hh => hcr hh.symm
              obtain ⟨hm1, hm2, hm3, hm4, hm5⟩ := hmem c hcrest
              rw [getD_set_ne _ _ _ _ hcne] at hm1 hm2 hm3 hm4
              have hcountc : (rdepId :: rest).count c = rest.count c := by
                rw [List.count_cons]
                have : ¬ ((rdepId == c) = true) := by simpa using hcne
                simp [this]
              refine ⟨?_, hm2, ?_, hm4, hm5⟩
              · rw [hcountc]
                exact hm1
              · rw [hcountc]
                exact hm3

theorem processRdeps_bound (idc : CommandId) :
    ∀ (rd : List CommandId) (cmds : List Command)
      (waiting ready : List CommandId)
      (out : List Command × List CommandId × List CommandId),
    processRdeps idc rd cmds waiting ready = some out →
    ∀ c ∈ rd, c < cmds.length := by
  intro rd
  induction rd with
  | nil =>
    intro _ _ _ _ _ c hc
    exact absurd hc (by simp)
  | cons rdepId rest ih =>
    intro cmds waiting ready out heq c hc
    unfold processRdeps at heq
    cases hget : cmds[rdepId]? with
    | none =>
      rw [hget] at heq
      exact Option.noConfusion heq
    | some rdep =>
      rw [hget] at heq
      dsimp only at heq
      obtain ⟨hlt, hgetD⟩ := getD_of_getElem? hget
      by_cases hstate : rdep.schedule_state = ScheduleState.Waiting
      case neg =>
        rw [if_neg hstate] at heq
        exact Option.noConfusion heq
      rw [if_pos hstate] at heq
      by_cases hemp : rdep.unfinished_deps.isEmpty = true
      case pos =>
        rw [if_pos hemp] at heq
        exact Option.noConfusion heq
      rw [if_neg hemp] at heq
      cases hpos : position idc rdep.unfinished_deps with
      | none =>
        rw [hpos] at heq
        exact Option.noConfusion heq
      | some i =>
        rw [hpos] at heq
        dsimp only at heq
        rcases List.mem_cons.mp hc with hceq | hcrest
        · subst hceq
          exact hlt
        · by_cases hu : (swapRemove rdep.unfinished_deps i).isEmpty = true
          · rw [if_pos hu] at heq
            have := ih _ _ _ _ heq c hcrest
            rwa [List.length_set] at this
          · rw [if_neg hu] at heq
            have := ih _ _ _ _ heq c hcrest
            rwa [List.length_set] at this

theorem invC_retire_success
    {cmds : List Command} {ready waiting running succeeded failed : List Nat}
    (hinv : InvC cmds ready waiting running succeeded failed)
    {id : Nat} (hmem : id ∈ running) (c' : Command)
    (hc' : c'.schedule_state = .Succeeded) :
    InvC (cmds.set id c') ready waiting (running.erase id)
      (succeeded ++ [id]) failed := by
  have hlt : id < cmds.length := hinv.mem_lt id (by simp [hmem])
  obtain ⟨hrun1, hr0, hw0, hs0, hf0⟩ := invC_counts_of_mem hinv hmem
  have hnotready : id ∉ ready := List.count_eq_zero.mp hr0
  have hnotwait : id ∉ waiting := List.count_eq_zero.mp hw0
  have hnotsucc : id ∉ succeeded := List.count_eq_zero.mp hs0
  have hnotfail : id ∉ failed := List.count_eq_zero.mp hf0
  have hnoterase : id ∉ running.erase id := by
    rw [← List.count_eq_zero, List.count_erase_self]
    omega
  refine ⟨?_, ?_, ?_, ?_, ?_, ?_, ?_⟩
  · intro x hx
    have hocc := hinv.occ x (by simpa using hx)
    unfold occCount at hocc ⊢
    by_cases h : x = id
    · subst h
      rw [List.count_erase_self, List.count_append, List.count_singleton]
      simp only [beq_self_eq_true, if_true]
      omega
    · rw [List.count_erase_of_ne h, List.count_append, List.count_singleton]
      have : ¬ ((id == x) = true) := by
        simp only [beq_iff_eq]
        exact fun hh => h hh.symm
      rw [if_neg this]
      omega
  · intro x hx
    simp only [List.mem_append, List.mem_singleton] at hx
    rw [List.length_set]
    rcases hx with (((h | h) | h) | h | h) | h
    · exact hinv.mem_lt x (by simp [h])
    · exact hinv.mem_lt x (by simp [h])
    · exact hinv.mem_lt x (by simp [List.mem_of_mem_erase h])
    · exact hinv.mem_lt x (by simp [h])
    · exact h ▸ hlt
    · exact hinv.mem_lt x (by simp [h])
  · intro x hx
    have hne : id ≠ x := fun hh => hnotready (hh ▸ hx)
    rw [getD_set_ne cmds id x c' hne]
    exact hinv.ready_state x hx
  · intro x hx
    have hne : id ≠ x := fun hh => hnotwait (hh ▸ hx)
    rw [getD_set_ne cmds id x c' hne]
    exact hinv.waiting_state x hx
  · intro x hx
    have hne : id ≠ x := fun hh => hnoterase (hh ▸ hx)
    rw [getD_set_ne cmds id x c' hne]
    exact hinv.running_state x (List.mem_of_mem_erase hx)
  · intro x hx
    rcases List.mem_append.mp hx with h | h
    · have hne : id ≠ x := fun hh => hnotsucc (hh ▸ h)
      rw [getD_set_ne cmds id x c' hne]
      exact hinv.succ_state x h
    · have : x = id := by simpa using h
      subst this
      rw [getD_set_self cmds x c' hlt]
      exact hc'
  · intro x hx
    have hne : id ≠ x := fun hh => hnotfail (hh ▸ hx)
    rw [getD_set_ne cmds id x c' hne]
    exact hinv.failed_state x hx

theorem invC_state_mem
    {cmds : List Command} {ready waiting running succeeded failed : List Nat}
    (hinv : InvC cmds ready waiting running succeeded failed)
    {c : Nat} (hlt : c < cmds.length) (hrun : c ∉ running)
    (hsucc : c ∉ succeeded) (hfail : c ∉ failed) :
    ((cmds.getD c default).schedule_state = .Ready →
      c ∈ ready ∧ c ∉ waiting) ∧
    ((cmds.getD c default).schedule_state = .Waiting →
      c ∈ waiting ∧ c ∉ ready) := by
  have hocc := hinv.occ c hlt
  unfold occCount at hocc
  have h1 : running.count c = 0 := List.count_eq_zero.mpr hrun
  have h2 : succeeded.count c = 0 := List.count_eq_zero.mpr hsucc
  have h3 : failed.count c = 0 := List.count_eq_zero.mpr hfail
  constructor
  · intro hR
    have hw0 : waiting.count c = 0 := by
      by_contra h
      have hmem := List.count_pos_iff.mp (Nat.pos_of_ne_zero h)
      have hW := hinv.waiting_state c hmem
      rw [hR] at hW
      exact ScheduleState.noConfusion hW
    refine ⟨List.count_pos_iff.mp (by omega), List.count_eq_zero.mp hw0⟩
  · intro hW
    have hr0 : ready.count c = 0 := by
      by_contra h
      have hmem := List.count_pos_iff.mp (Nat.pos_of_ne_zero h)
      have hR := hinv.ready_state c hmem
      rw [hW] at hR
      exact ScheduleState.noConfusion hR
    refine ⟨List.count_pos_iff.mp (by omega), List.count_eq_zero.mp hr0⟩

theorem on_command_succeeded_spec (s0 s' : Scheduler) (idc : CommandId)
    (hinv : SchedInv s0) (hidc : idc ∈ s0.running)
    (heq : Scheduler.on_command_succeeded
      { s0 with running := s0.running.erase idc } idc = some s') :
    SchedInv s' ∧
    s'.commands.length = s0.commands.length ∧
    (cmdAt s' idc).schedule_state = ScheduleState.Succeeded ∧
    s'.succeeded = s0.succeeded ++ [idc] ∧
    s'.running = s0.running.erase idc ∧
    s'.failed = s0.failed ∧
    (∀ c, c ∉ (cmdAt s0 idc).reverse_deps → c ≠ idc →
      cmdAt s' c = cmdAt s0 c) ∧
    (∃ newly, s'.ready = s0.ready ++ newly ∧
      ∀ c ∈ newly, c ∈ (cmdAt s0 idc).reverse_deps) ∧
    (∀ c ∈ (cmdAt s0 idc).reverse_deps,
      c ≠ idc ∧
      ((cmdAt s' c).unfinished_deps.count idc
          + (cmdAt s0 idc).reverse_deps.count c
        = (cmdAt s0 c).unfinished_deps.count idc) ∧
      (∀ x, x ≠ idc → (cmdAt s' c).unfinished_deps.count x
        = (cmdAt s0 c).unfinished_deps.count x) ∧
      ((cmdAt s' c).unfinished_deps.length
          + (cmdAt s0 idc).reverse_deps.count c
        = (cmdAt s0 c).unfinished_deps.length) ∧
      ((cmdAt s' c).unfinished_deps = [] →
        (cmdAt s' c).schedule_state = ScheduleState.Ready ∧
        c ∈ s'.ready ∧ c ∉ s'.waiting) ∧
      ((cmdAt s' c).unfinished_deps ≠ [] →
        (cmdAt s' c).schedule_state = ScheduleState.Waiting ∧
        c ∈ s'.waiting ∧ c ∉ s'.ready)) := by
  have hlt0 : idc < s0.commands.length := hinv.mem_lt idc (by simp [hidc])
  have hc? : s0.commands[idc]? = some (cmdAt s0 idc) := by
    rw [List.getElem?_eq_getElem hlt0]
    unfold cmdAt
    rw [List.getD_eq_getElem s0.commands default hlt0]
  unfold Scheduler.on_command_succeeded at heq
  dsimp only at heq
  rw [hc?] at heq
  dsimp only at heq
  cases hp : processRdeps idc (cmdAt s0 idc).reverse_deps
      (s0.commands.set idc
        { cmdAt s0 idc with schedule_state := ScheduleState.Succeeded })
      s0.waiting s0.ready with
  | none =>
    rw [hp] at heq
    exact Option.noConfusion heq
  | some out =>
    obtain ⟨cmds', waiting', ready'⟩ := out
    rw [hp] at heq
    injection heq with heq
    subst heq
    dsimp only [SchedInv, cmdAt]
    have hmidInv := invC_retire_success hinv hidc
      { cmdAt s0 idc with schedule_state := ScheduleState.Succeeded } rfl
    obtain ⟨hInv', hlen', hunch, ⟨newly, hrdy, hnew⟩, hmem⟩ :=
      processRdeps_spec idc (s0.running.erase idc) (s0.succeeded ++ [idc])
        s0.failed (cmdAt s0 idc).reverse_deps _ s0.waiting s0.ready
        cmds' waiting' ready' hp hmidInv
    have hWlt := processRdeps_bound idc _ _ _ _ _ hp
    have hWst := processRdeps_waiting idc _ _ _ _ _ hp
    have hnotid : ∀ c ∈ (cmdAt s0 idc).reverse_deps, c ≠ idc := by
      intro c hc hceq
      subst hceq
      have := hWst c hc
      rw [getD_set_self _ _ _ hlt0] at this
      exact absurd this (by simp)
    have hidnotin : idc ∉ (cmdAt s0 idc).reverse_deps := by
      intro hmem2
      exact hnotid idc hmem2 rfl
    have hlen'' : cmds'.length = s0.commands.length := by
      rw [hlen', List.length_set]
    refine ⟨hInv', hlen'', ?_, rfl, rfl, rfl, ?_, ⟨newly, hrdy, hnew⟩, ?_⟩
    · rw [hunch idc hidnotin, getD_set_self _ _ _ hlt0]
    · intro c hc hcne
      rw [hunch c hc, getD_set_ne _ _ _ _ (fun hh => hcne hh.symm)]
    · intro c hc
      have hcne : c ≠ idc := hnotid c hc
      have hclt : c < s0.commands.length := by
        have := hWlt c hc
        rwa [List.length_set] at this
      have hcstate : (s0.commands.getD c default).schedule_state
          = ScheduleState.Waiting := by
        have := hWst c hc
        rwa [getD_set_ne _ _ _ _ (fun hh => hcne hh.symm)] at this
      obtain ⟨hwc1, hrc0, hruc0, hsc0, hfc0⟩ :=
        invC_waiting_counts hinv hclt hcstate
      have hcnotrun : c ∉ s0.running.erase idc := fun hmem2 =>
        (List.count_eq_zero.mp hruc0) (List.mem_of_mem_erase hmem2)
      have hcnotsucc : c ∉ s0.succeeded ++ [idc] := by
        intro hmem2
        rcases List.mem_append.mp hmem2 with h | h
        · exact absurd h (List.count_eq_zero.mp hsc0)
        · exact hcne (by simpa using h)
      have hcnotfail : c ∉ s0.failed := List.count_eq_zero.mp hfc0
      have hclt' : c < cmds'.length := by
        rw [hlen'']
        exact hclt
      obtain ⟨hm1, hm2, hm3, hm4, hm5⟩ := hmem c hc
      rw [getD_set_ne _ _ _ _ (fun hh => hcne hh.symm)] at hm1 hm2 hm3 hm4
      have hmems := invC_state_mem hInv' hclt' hcnotrun hcnotsucc hcnotfail
      refine ⟨hcne, hm1, hm2, hm3, ?_, ?_⟩
      · intro hempty
        have hstate : (cmds'.getD c default).schedule_state
            = ScheduleState.Ready := by
          rw [hm5, hempty]
          rfl
        obtain ⟨h1, h2⟩ := hmems.1 hstate
        exact ⟨hstate, h1, h2⟩
      · intro hnonempty
        have hstate : (cmds'.getD c default).schedule_state
            = ScheduleState.Waiting := by
          rw [hm5]
          rw [if_neg (by simpa using hnonempty)]
        obtain ⟨h1, h2⟩ := hmems.2 hstate
        exact ⟨hstate, h1, h2⟩

theorem classifyAll_new (files : List File) :
    ∀ (idxs : List Nat) (cmds : List Command)
      (ready waiting : List CommandId)
      (rdeps : List (CommandId × CommandId))
      (out : List Command × List CommandId × List CommandId
        × List (CommandId × CommandId)),
    classifyAll files idxs cmds ready waiting rdeps = some out →
    ∀ i ∈ idxs, i < cmds.length ∧
      (cmds.getD i default).schedule_state = ScheduleState.New := by
  intro idxs
  induction idxs with
  | nil =>
    intro _ _ _ _ _ _ i hi
    exact absurd hi (by simp)
  | cons j rest ih =>
    intro cmds ready waiting rdeps out heq i hi
    unfold classifyAll at heq
    cases hget : cmds[j]? with
    | none =>
      rw [hget] at heq
      exact Option.noConfusion heq
    | some c =>
      rw [hget] at heq
      dsimp only at heq
      obtain ⟨hlt, hgetD⟩ := getD_of_getElem? hget
      by_cases hnew : c.schedule_state = ScheduleState.New
      case neg =>
        rw [if_neg hnew] at heq
        exact Option.noConfusion heq
      rw [if_pos hnew] at heq
      cases hdeps : depsOfInputs files c.inputs with
      | none =>
        rw [hdeps] at heq
        exact Option.noConfusion heq
      | some deps =>
        rw [hdeps] at heq
        dsimp only at heq
        rcases List.mem_cons.mp hi with hieq | hirest
        · subst hieq
          rw [hgetD]
          exact ⟨hlt, hnew⟩
        · by_cases hcond : (c.unfinished_deps ++ deps).isEmpty = true
          · rw [if_pos hcond] at heq
            have hr := ih _ _ _ _ _ heq i hirest
            constructor
            · rw [← List.length_set cmds j]
              exact hr.1
            · by_cases hij : i = j
              · subst hij
                have := hr.2
                rw [getD_set_self _ _ _ hlt] at this
                exact absurd this (by simp)
              · have := hr.2
                rwa [getD_set_ne _ _ _ _ (fun hh => hij hh.symm)] at this
          · rw [if_neg hcond] at heq
            have hr := ih _ _ _ _ _ heq i hirest
            constructor
            · rw [← List.length_set cmds j]
              exact hr.1
            · by_cases hij : i = j
              · subst hij
                have := hr.2
                rw [getD_set_self _ _ _ hlt] at this
                exact absurd this (by simp)
              · have := hr.2
                rwa [getD_set_ne _ _ _ _ (fun hh => hij hh.symm)] at this

theorem classifyAll_spec (files : List File) :
    ∀ (idxs : List Nat) (cmds : List Command)
      (ready waiting : List CommandId)
      (rdeps : List (CommandId × CommandId))
      (out : List Command × List CommandId × List CommandId
        × List (CommandId × CommandId)),
    classifyAll files idxs cmds ready waiting rdeps = some out →
    out.1.length = cmds.length ∧
    (∀ i, i ∉ idxs → out.1.getD i default = cmds.getD i default) ∧
    (∀ i ∈ idxs, (out.1.getD i default).schedule_state
        = if (out.1.getD i default).unfinished_deps.isEmpty = true
          then ScheduleState.Ready else ScheduleState.Waiting) := by
  intro idxs
  induction idxs with
  | nil =>
    intro cmds ready waiting rdeps out heq
    unfold classifyAll at heq
    injection heq with h
    subst h
    exact ⟨rfl, fun i _ => rfl, by simp⟩
  | cons j rest ih =>
    intro cmds ready waiting rdeps out heq
    unfold classifyAll at heq
    cases hget : cmds[j]? with
    | none =>
      rw [hget] at heq
      exact Option.noConfusion heq
    | some c =>
      rw [hget] at heq
      dsimp only at heq
      obtain ⟨hlt, hgetD⟩ := getD_of_getElem? hget
      by_cases hnew : c.schedule_state = ScheduleState.New
      case neg =>
        rw [if_neg hnew] at heq
        exact Option.noConfusion heq
      rw [if_pos hnew] at heq
      cases hdeps : depsOfInputs files c.inputs with
      | none =>
        rw [hdeps] at heq
        exact Option.noConfusion heq
      | some deps =>
        rw [hdeps] at heq
        dsimp only at heq
        by_cases hcond : (c.unfinished_deps ++ deps).isEmpty = true
        · rw [if_pos hcond] at heq
          obtain ⟨hl, hu, hs⟩ := ih _ _ _ _ _ heq
          have hjnotrest : j ∉ rest := by
            intro hmem
            have := (classifyAll_new files rest _ _ _ _ _ heq j hmem).2
            rw [getD_set_self _ _ _ hlt] at this
            exact absurd this (by simp)
          have hfinal : out.1.getD j default
              = { c with
                    unfinished_deps := c.unfinished_deps ++ deps,
                    schedule_state := ScheduleState.Ready } := by
            rw [hu j hjnotrest, getD_set_self _ _ _ hlt]
          refine ⟨by rw [hl]; simp, ?_, ?_⟩
          · intro i hi
            have hij : i ≠ j := fun hh => hi (by simp [hh])
            have hirest : i ∉ rest := fun hh => hi (by simp [hh])
            rw [hu i hirest, getD_set_ne _ _ _ _ (fun hh => hij hh.symm)]
          · intro i hi
            rcases List.mem_cons.mp hi with hieq | hirest
            · subst hieq
              rw [hfinal]
              dsimp only
              rw [if_pos hcond]
            · exact hs i hirest
        · rw [if_neg hcond] at heq
          obtain ⟨hl, hu, hs⟩ := ih _ _ _ _ _ heq
          have hjnotrest : j ∉ rest := by
            intro hmem
            have := (classifyAll_new files rest _ _ _ _ _ heq j hmem).2
            rw [getD_set_self _ _ _ hlt] at this
            exact absurd this (by simp)
          have hfinal : out.1.getD j default
              = { c with
                    unfinished_deps := c.unfinished_deps ++ deps,
                    schedule_state := ScheduleState.Waiting } := by
            rw [hu j hjnotrest, getD_set_self _ _ _ hlt]
          refine ⟨by rw [hl]; simp, ?_, ?_⟩
          · intro i hi
            have hij : i ≠ j := fun hh => hi (by simp [hh])
            have hirest : i ∉ rest := fun hh => hi (by simp [hh])
            rw [hu i hirest, getD_set_ne _ _ _ _ (fun hh => hij hh.symm)]
          · intro i hi
            rcases List.mem_cons.mp hi with hieq | hirest
            · subst hieq
              rw [hfinal]
              dsimp only
              rw [if_neg hcond]
            · exact hs i hirest

theorem flushRdeps_fields :
    ∀ (rd : List (CommandId × CommandId)) (cmds cmds' : List Command),
    flushRdeps rd cmds = some cmds' →
    cmds'.length = cmds.length ∧
    (∀ i, (cmds'.getD i default).schedule_state
        = (cmds.getD i default).schedule_state ∧
      (cmds'.getD i default).unfinished_deps
        = (cmds.getD i default).unfinished_deps) := by
  intro rd
  induction rd with
  | nil =>
    intro cmds cmds' heq
    injection heq with h
    subst h
    exact ⟨rfl, fun i => ⟨rfl, rfl⟩⟩
  | cons p rest ih =>
    obtain ⟨id, r⟩ := p
    intro cmds cmds' heq
    unfold flushRdeps at heq
    cases hget : cmds[id]? with
    | none =>
      rw [hget] at heq
      exact Option.noConfusion heq
    | some c =>
      rw [hget] at heq
      dsimp only at heq
      obtain ⟨hlt, hgetD⟩ := getD_of_getElem? hget
      obtain ⟨hl, hf⟩ := ih _ _ heq
      refine ⟨by rw [hl]; simp, ?_⟩
      intro i
      obtain ⟨h1, h2⟩ := hf i
      by_cases hij : i = id
      · subst hij
        rw [h1, h2, getD_set_self _ _ _ hlt, hgetD]
        exact ⟨rfl, rfl⟩
      · rw [h1, h2, getD_set_ne _ _ _ _ (fun hh => hij hh.symm)]
        exact ⟨rfl, rfl⟩

theorem create_dependency_graph_spec (s t : Scheduler)
    (heq : s.create_dependency_graph = some t) :
    t.commands.length = s.commands.length ∧
    ∀ i < t.commands.length,
      ((cmdAt t i).schedule_state = ScheduleState.Ready
        ↔ (cmdAt t i).unfinished_deps = []) ∧
      ((cmdAt t i).schedule_state = ScheduleState.Waiting
        ↔ (cmdAt t i).unfinished_deps ≠ []) := by
  unfold Scheduler.create_dependency_graph at heq
  cases hcl : classifyAll s.files (List.range s.commands.length) s.commands
      s.ready s.waiting [] with
  | none =>
    rw [hcl] at heq
    exact Option.noConfusion heq
  | some out =>
    obtain ⟨cmds, ready, waiting, rdeps⟩ := out
    rw [hcl] at heq
    dsimp only at heq
    cases hfl : flushRdeps rdeps cmds with
    | none =>
      rw [hfl] at heq
      exact Option.noConfusion heq
    | some cmds' =>
      rw [hfl] at heq
      dsimp only at heq
      by_cases hre : ready.isEmpty = true
      · rw [if_pos hre] at heq
        exact Option.noConfusion heq
      · rw [if_neg hre] at heq
        injection heq with heq
        subst heq
        dsimp only [cmdAt]
        obtain ⟨hcllen, _, hclstate⟩ :=
          classifyAll_spec s.files (List.range s.commands.length) s.commands
            s.ready s.waiting [] _ hcl
        obtain ⟨hfllen, hflf⟩ := flushRdeps_fields rdeps cmds cmds' hfl
        have hlen : cmds'.length = s.commands.length := by
          rw [hfllen]
          exact hcllen
        refine ⟨hlen, ?_⟩
        intro i hi
        rw [hlen] at hi
        obtain ⟨hst, hdeps⟩ := hflf i
        have hform := hclstate i (by simp [hi])
        rw [← hst, ← hdeps] at hform
        by_cases hemp : (cmds'.getD i default).unfinished_deps.isEmpty = true
        · rw [if_pos hemp] at hform
          have hde : (cmds'.getD i default).unfinished_deps = [] := by
            rwa [List.isEmpty_iff] at hemp
          constructor
          · exact ⟨fun _ => hde, fun _ => hform⟩
          · constructor
            · intro hW
              rw [hform] at hW
              exact absurd hW (by simp)
            · intro hne
              exact absurd hde hne
        · rw [if_neg hemp] at hform
          have hde : (cmds'.getD i default).unfinished_deps ≠ [] := by
            rw [List.isEmpty_iff] at hemp
            exact hemp
          constructor
          · constructor
            · intro hR
              rw [hform] at hR
              exact absurd hR (by simp)
            · intro hempty
              exact absurd hempty hde
          · exact ⟨fun _ => hde, fun _ => hform⟩

/-- Two commands feeding each other's inputs: a dependency cycle. -/
def cycSched : Scheduler :=
  { sampleSched with
      files := [⟨0, ⟨false, ["x"]⟩, ⟨false, ["x"]⟩, some 1, none⟩,
                ⟨1, ⟨false, ["y"]⟩, ⟨false, ["y"]⟩, some 0, none⟩],
      commands := [⟨0, "A", [0], [1], .New, [], []⟩,
                   ⟨1, "B", [1], [0], .New, [], []⟩] }

/-- C4: cycle handling at the failing input.  For the two-command cycle,
graph construction classifies both commands `Waiting` and leaves `ready`
empty, and `create_dependency_graph` — whose only cycle check is the
trailing `assert!(!ready.is_empty())`, `check_for_circular_dependencies`
being an empty TODO — panics (`none`): no "circular dependency" error
value is ever produced, contradicting the specified behavior. -/
theorem circular_dependency_code_bug :
    cycSched.commands ≠ [] ∧
    classifyAll cycSched.files (List.range cycSched.commands.length)
      cycSched.commands cycSched.ready cycSched.waiting []
      = some ([⟨0, "A", [0], [1], .Waiting, [1], []⟩,
               ⟨1, "B", [1], [0], .Waiting, [0], []⟩], [], [0, 1],
              [(1, 0), (0, 1)]) ∧
    cycSched.check_for_circular_dependencies = () ∧
    cycSched.create_dependency_graph = none := by
  refine ⟨by decide, by decide, rfl, by decide⟩

/-- C1: dependency/readiness discipline.  (a) After
`create_dependency_graph` succeeds, a command is `Ready` iff its
`unfinished_deps` is empty and `Waiting` iff it is non-empty.  (b) When a
command succeeds, `on_command_succeeded` (invoked by the loop after
dropping it from the in-flight set) removes from each reverse dependency's
`unfinished_deps` exactly one occurrence of the completing id per reverse
edge (swap-remove: counts of all other ids and nothing else change), and a
reverse dependency moves from the waiting set to the back of the ready
queue exactly when its `unfinished_deps` becomes empty — otherwise it
stays `Waiting` in the waiting set.  (c) `start_next_command` dispatches a
command only if its `unfinished_deps` is empty, so no command is
dispatched while it still has an unfinished producer. -/
theorem dependency_readiness_spec :
    (∀ (s t : Scheduler), s.create_dependency_graph = some t →
      ∀ i < t.commands.length,
        ((cmdAt t i).schedule_state = ScheduleState.Ready
          ↔ (cmdAt t i).unfinished_deps = []) ∧
        ((cmdAt t i).schedule_state = ScheduleState.Waiting
          ↔ (cmdAt t i).unfinished_deps ≠ [])) ∧
    (∀ (s0 s' : Scheduler) (idc : CommandId),
      SchedInv s0 → idc ∈ s0.running →
      Scheduler.on_command_succeeded
        { s0 with running := s0.running.erase idc } idc = some s' →
      ∀ c ∈ (cmdAt s0 idc).reverse_deps,
        ((cmdAt s' c).unfinished_deps.count idc
            + (cmdAt s0 idc).reverse_deps.count c
          = (cmdAt s0 c).unfinished_deps.count idc) ∧
        (∀ x, x ≠ idc → (cmdAt s' c).unfinished_deps.count x
          = (cmdAt s0 c).unfinished_deps.count x) ∧
        ((cmdAt s' c).unfinished_deps.length
            + (cmdAt s0 idc).reverse_deps.count c
          = (cmdAt s0 c).unfinished_deps.length) ∧
        ((cmdAt s' c).unfinished_deps = [] →
          (cmdAt s' c).schedule_state = ScheduleState.Ready ∧
          c ∈ s'.ready ∧ c ∉ s'.waiting) ∧
        ((cmdAt s' c).unfinished_deps ≠ [] →
          (cmdAt s' c).schedule_state = ScheduleState.Waiting ∧
          c ∈ s'.waiting ∧ c ∉ s'.ready)) ∧
    (∀ (s t : Scheduler) (id : CommandId),
      s.start_next_command id = some t →
      (cmdAt s id).unfinished_deps = []) := by
  refine ⟨?_, ?_, ?_⟩
  · intro s t heq
    exact (create_dependency_graph_spec s t heq).2
  · intro s0 s' idc hinv hidc heq c hc
    obtain ⟨_, _, _, _, _, _, _, _, hmem⟩ :=
      on_command_succeeded_spec s0 s' idc hinv hidc heq
    obtain ⟨_, h1, h2, h3, h4, h5⟩ := hmem c hc
    exact ⟨h1, h2, h3, h4, h5⟩
  · intro s t id heq
    unfold Scheduler.start_next_command at heq
    dsimp only at heq
    cases hget : s.commands[id]? with
    | none =>
      rw [hget] at heq
      exact Option.noConfusion heq
    | some c =>
      rw [hget] at heq
      dsimp only at heq
      obtain ⟨hlt, hgetD⟩ := getD_of_getElem? hget
      by_cases hready : c.schedule_state = ScheduleState.Ready
      case neg =>
        rw [if_neg hready] at heq
        exact Option.noConfusion heq
      rw [if_pos hready] at heq
      by_cases hdeps : c.unfinished_deps.length = 0
      case neg =>
        rw [if_neg hdeps] at heq
        exact Option.noConfusion heq
      unfold cmdAt
      rw [hgetD]
      exact List.length_eq_zero.mp hdeps

/-- Mid-run state of a two-command chain: `A` (id 0) is in flight, `B`
(id 1) waits on it. -/
def chainMid : Scheduler :=
  { sampleSched with
      files := [⟨0, ⟨false, ["x"]⟩, ⟨true, ["cwd", "razel-bin", "x"]⟩,
        some 0, none⟩],
      commands := [⟨0, "A", [], [0], .Ready, [], [1]⟩,
                   ⟨1, "B", [0], [], .Waiting, [0], []⟩],
      waiting := [1]
      ready := []
      running := [0] }

/-- The state after `A` succeeds. -/
def chainMidAfter : Scheduler :=
  (Scheduler.on_command_succeeded
    { chainMid with running := chainMid.running.erase 0 } 0).getD default

theorem dependency_readiness_spec_witness :
    SchedInv chainMid ∧ 0 ∈ chainMid.running ∧
    Scheduler.on_command_succeeded
      { chainMid with running := chainMid.running.erase 0 } 0
      = some chainMidAfter ∧
    (∀ c ∈ (cmdAt chainMid 0).reverse_deps,
      ((cmdAt chainMidAfter c).unfinished_deps.count 0
          + (cmdAt chainMid 0).reverse_deps.count c
        = (cmdAt chainMid c).unfinished_deps.count 0) ∧
      (∀ x, x ≠ 0 → (cmdAt chainMidAfter c).unfinished_deps.count x
        = (cmdAt chainMid c).unfinished_deps.count x) ∧
      ((cmdAt chainMidAfter c).unfinished_deps.length
          + (cmdAt chainMid 0).reverse_deps.count c
        = (cmdAt chainMid c).unfinished_deps.length) ∧
      ((cmdAt chainMidAfter c).unfinished_deps = [] →
        (cmdAt chainMidAfter c).schedule_state = ScheduleState.Ready ∧
        c ∈ chainMidAfter.ready ∧ c ∉ chainMidAfter.waiting) ∧
      ((cmdAt chainMidAfter c).unfinished_deps ≠ [] →
        (cmdAt chainMidAfter c).schedule_state = ScheduleState.Waiting ∧
        c ∈ chainMidAfter.waiting ∧ c ∉ chainMidAfter.ready)) :=
  have hinv : SchedInv chainMid :=
    ⟨by decide, by decide, by decide, by decide, by decide, by decide,
      by decide⟩
  ⟨hinv, by decide, by decide,
    dependency_readiness_spec.2.1 chainMid chainMidAfter 0 hinv (by decide)
      (by decide)⟩

/-- Fresh two-command chain: `A` (id 0) produces file `x`, `B` (id 1)
consumes it. -/
def chainSched : Scheduler :=
  { sampleSched with
      files := [⟨0, ⟨false, ["x"]⟩, ⟨true, ["cwd", "razel-bin", "x"]⟩,
        some 0, none⟩],
      commands := [⟨0, "A", [], [0], .New, [], []⟩,
                   ⟨1, "B", [0], [], .New, [], []⟩] }

/-- The chain after dependency-graph construction. -/
def chainGraph : Scheduler := chainSched.create_dependency_graph.getD default

/-- The chain after the initial dispatch (`A` in flight). -/
def chainDispatched : Scheduler := chainGraph.start_ready_commands.getD default

/-- The chain state after `A` is erased from the in-flight list and
recorded as failed (before the refill of the worker pool). -/
def chainAfterFail : Scheduler :=
  (chainDispatched.on_command_finished 0 false).getD default

/-- The final chain state after `A`'s failure is processed and the ready
queue is (vacuously) refilled. -/
def chainFailedRun : Scheduler :=
  chainAfterFail.start_ready_commands.getD default

/-- C3 counterexample: after `on_command_failed` the failed command's
`schedule_state` is NOT set to `Failed` — it stays `Ready`
(`on_command_failed` only pushes to `failed` and logs), refuting the
claim's "its state set accordingly". -/
theorem failed_state_counterexample :
    chainDispatched.on_command_finished 0 false = some chainAfterFail ∧
    chainAfterFail.failed = [0] ∧
    (cmdAt chainAfterFail 0).schedule_state = ScheduleState.Ready ∧
    ¬ (cmdAt chainAfterFail 0).schedule_state = ScheduleState.Failed := by
  refine ⟨by decide, by decide, by decide, by decide⟩

/-- C3 (amended): failure does not propagate.  `on_command_failed` appends
the command to `failed` and changes nothing else — in particular the
reverse dependencies' `unfinished_deps` and `schedule_state` are untouched
(they remain `Waiting` forever) and even the failed command's own
`schedule_state` is left unchanged (the `Failed` state is never assigned).
For the two-command chain where `A` produces a file consumed by `B` and
`A` fails, the loop terminates with `succeeded = 0`, `failed = 1`,
`not_run = 1`, and `B` still `Waiting` in the waiting set. -/
theorem failure_no_propagation :
    (∀ (s s' : Scheduler) (id : CommandId),
      s.on_command_failed id = some s' →
      s'.failed = s.failed ++ [id] ∧ s'.commands = s.commands ∧
      s'.ready = s.ready ∧ s'.waiting = s.waiting ∧
      s'.running = s.running ∧ s'.succeeded = s.succeeded) ∧
    chainSched.create_dependency_graph = some chainGraph ∧
    chainGraph.start_ready_commands = some chainDispatched ∧
    chainDispatched.on_command_finished 0 false = some chainAfterFail ∧
    chainAfterFail.start_ready_commands = some chainFailedRun ∧
    chainFailedRun.ready.length + chainFailedRun.running.length = 0 ∧
    chainFailedRun.schedulerResult = ⟨0, 1, 1⟩ ∧
    (cmdAt chainFailedRun 1).schedule_state = ScheduleState.Waiting ∧
    1 ∈ chainFailedRun.waiting ∧
    (cmdAt chainFailedRun 1).unfinished_deps = [0] := by
  refine ⟨?_, by decide, by decide, by decide, by decide, by decide,
    by decide, by decide, by decide, by decide⟩
  intro s s' id heq
  unfold Scheduler.on_command_failed at heq
  cases hget : s.commands[id]? with
  | none =>
    rw [hget] at heq
    exact Option.noConfusion heq
  | some c =>
    rw [hget] at heq
    dsimp only at heq
    injection heq with heq
    subst heq
    exact ⟨rfl, rfl, rfl, rfl, rfl, rfl⟩

theorem failure_no_propagation_witness :
    chainAfterFail.on_command_failed 1 = some
      { chainAfterFail with failed := chainAfterFail.failed ++ [1] } ∧
    ({ chainAfterFail with failed := chainAfterFail.failed ++ [1]
        : Scheduler }.failed = chainAfterFail.failed ++ [1] ∧
      { chainAfterFail with failed := chainAfterFail.failed ++ [1]
        : Scheduler }.commands = chainAfterFail.commands ∧
      { chainAfterFail with failed := chainAfterFail.failed ++ [1]
        : Scheduler }.ready = chainAfterFail.ready ∧
      { chainAfterFail with failed := chainAfterFail.failed ++ [1]
        : Scheduler }.waiting = chainAfterFail.waiting ∧
      { chainAfterFail with failed := chainAfterFail.failed ++ [1]
        : Scheduler }.running = chainAfterFail.running ∧
      { chainAfterFail with failed := chainAfterFail.failed ++ [1]
        : Scheduler }.succeeded = chainAfterFail.succeeded) :=
  ⟨by decide,
    failure_no_propagation.1 chainAfterFail
      { chainAfterFail with failed := chainAfterFail.failed ++ [1] } 1
      (by decide)⟩

theorem invC_retire_fail
    {cmds : List Command} {ready waiting running succeeded failed : List Nat}
    (hinv : InvC cmds ready waiting running succeeded failed)
    {id : Nat} (hmem : id ∈ running) :
    InvC cmds ready waiting (running.erase id) succeeded
      (failed ++ [id]) := by
  have hlt : id < cmds.length := hinv.mem_lt id (by simp [hmem])
  obtain ⟨hrun1, hr0, hw0, hs0, hf0⟩ := invC_counts_of_mem hinv hmem
  refine ⟨?_, ?_, hinv.ready_state, hinv.waiting_state, ?_, hinv.succ_state,
    ?_⟩
  · intro x hx
    have hocc := hinv.occ x hx
    unfold occCount at hocc ⊢
    by_cases h : x = id
    · subst h
      rw [List.count_erase_self, List.count_append, List.count_singleton]
      simp only [beq_self_eq_true, if_true]
      omega
    · rw [List.count_erase_of_ne h, List.count_append, List.count_singleton]
      have : ¬ ((id == x) = true) := by
        simp only [beq_iff_eq]
        exact fun hh => h hh.symm
      rw [if_neg this]
      omega
  · intro x hx
    simp only [List.mem_append, List.mem_singleton] at hx
    rcases hx with (((h | h) | h) | h) | h | h
    · exact hinv.mem_lt x (by simp [h])
    · exact hinv.mem_lt x (by simp [h])
    · exact hinv.mem_lt x (by simp [List.mem_of_mem_erase h])
    · exact hinv.mem_lt x (by simp [h])
    · exact hinv.mem_lt x (by simp [h])
    · rw [h]
      exact hlt
  · intro x hx
    exact hinv.running_state x (List.mem_of_mem_erase hx)
  · intro x hx
    rcases List.mem_append.mp hx with h | h
    · exact hinv.failed_state x h
    · have : x = id := by simpa using h
      subst this
      exact hinv.running_state x hmem

theorem invC_dispatch
    {cmds : List Command} {rest waiting running succeeded failed : List Nat}
    {id : Nat}
    (hinv : InvC cmds (id :: rest) waiting running succeeded failed) :
    InvC cmds rest waiting (running ++ [id]) succeeded failed := by
  refine ⟨?_, ?_, ?_, hinv.waiting_state, ?_, hinv.succ_state,
    hinv.failed_state⟩
  · intro x hx
    have hocc := hinv.occ x hx
    unfold occCount at hocc ⊢
    rw [List.count_cons] at hocc
    rw [List.count_append, List.count_singleton]
    by_cases h : id = x
    · simp only [h, beq_self_eq_true, if_true] at hocc ⊢
      omega
    · have : ¬ ((id == x) = true) := by
        simp only [beq_iff_eq]
        exact h
      rw [if_neg this] at hocc ⊢
      omega
  · intro x hx
    simp only [List.mem_append, List.mem_singleton] at hx
    rcases hx with (((h | h) | (h | h)) | h) | h
    · exact hinv.mem_lt x (by simp [h])
    · exact hinv.mem_lt x (by simp [h])
    · exact hinv.mem_lt x (by simp [h])
    · exact hinv.mem_lt x (by simp [h])
    · exact hinv.mem_lt x (by simp [h])
    · exact hinv.mem_lt x (by simp [h])
  · intro x hx
    exact hinv.ready_state x (by simp [hx])
  · intro x hx
    rcases List.mem_append.mp hx with h | h
    · exact hinv.running_state x h
    · have : x = id := by simpa using h
      subst this
      exact hinv.ready_state x (by simp)

theorem on_command_finished_inv (s0 s1 : Scheduler) (id : CommandId)
    (b : Bool) (hinv : SchedInv s0) (hmem : id ∈ s0.running)
    (heq : s0.on_command_finished id b = some s1) :
    SchedInv s1 ∧ s1.commands.length = s0.commands.length := by
  unfold Scheduler.on_command_finished at heq
  dsimp only at heq
  cases b with
  | true =>
    rw [if_pos rfl] at heq
    obtain ⟨h1, h2, _⟩ := on_command_succeeded_spec s0 s1 id hinv hmem heq
    exact ⟨h1, h2⟩
  | false =>
    rw [if_neg (by simp)] at heq
    unfold Scheduler.on_command_failed at heq
    dsimp only at heq
    cases hget : s0.commands[id]? with
    | none =>
      rw [hget] at heq
      exact Option.noConfusion heq
    | some c =>
      rw [hget] at heq
      dsimp only at heq
      injection heq with heq
      subst heq
      refine ⟨?_, rfl⟩
      show InvC s0.commands s0.ready s0.waiting (s0.running.erase id)
        s0.succeeded (s0.failed ++ [id])
      exact invC_retire_fail hinv hmem

theorem start_next_command_inv (s t : Scheduler) (id : CommandId)
    (rest : List CommandId) (hready : s.ready = id :: rest)
    (hinv : SchedInv s)
    (heq : Scheduler.start_next_command { s with ready := rest } id
      = some t) :
    SchedInv t ∧ t.commands = s.commands ∧ t.waiting = s.waiting ∧
      t.succeeded = s.succeeded ∧ t.failed = s.failed ∧ t.ready = rest ∧
      t.running = s.running ++ [id] ∧
      t.worker_threads = s.worker_threads := by
  unfold Scheduler.start_next_command at heq
  dsimp only at heq
  cases hget : s.commands[id]? with
  | none =>
    rw [hget] at heq
    exact Option.noConfusion heq
  | some c =>
    rw [hget] at heq
    dsimp only at heq
    by_cases hrs : c.schedule_state = ScheduleState.Ready
    case neg =>
      rw [if_neg hrs] at heq
      exact Option.noConfusion heq
    rw [if_pos hrs] at heq
    by_cases hdeps : c.unfinished_deps.length = 0
    case neg =>
      rw [if_neg hdeps] at heq
      exact Option.noConfusion heq
    rw [if_pos hdeps] at heq
    injection heq with heq
    subst heq
    refine ⟨?_, rfl, rfl, rfl, rfl, rfl, rfl, rfl⟩
    show InvC s.commands rest s.waiting (s.running ++ [id]) s.succeeded
      s.failed
    have hinv' : InvC s.commands (id :: rest) s.waiting s.running
        s.succeeded s.failed := by
      have := hinv
      unfold SchedInv at this
      rwa [hready] at this
    exact invC_dispatch hinv'

theorem startReadyAux_inv :
    ∀ (fuel : Nat) (s s' : Scheduler),
    startReadyAux fuel s = some s' → SchedInv s →
    SchedInv s' ∧ s'.commands = s.commands ∧ s'.waiting = s.waiting ∧
      s'.succeeded = s.succeeded ∧ s'.failed = s.failed := by
  intro fuel
  induction fuel with
  | zero =>
    intro s s' heq hinv
    injection heq with heq
    subst heq
    exact ⟨hinv, rfl, rfl, rfl, rfl⟩
  | succ n ih =>
    intro s s' heq hinv
    unfold startReadyAux at heq
    by_cases hr : s.running.length < s.worker_threads
    case neg =>
      rw [if_neg hr] at heq
      injection heq with heq
      subst heq
      exact ⟨hinv, rfl, rfl, rfl, rfl⟩
    rw [if_pos hr] at heq
    cases hready : s.ready with
    | nil =>
      rw [hready] at heq
      dsimp only at heq
      injection heq with heq
      subst heq
      exact ⟨hinv, rfl, rfl, rfl, rfl⟩
    | cons id rest =>
      rw [hready] at heq
      dsimp only at heq
      cases hstart : Scheduler.start_next_command { s with ready := rest }
          id with
      | none =>
        rw [hstart] at heq
        exact Option.noConfusion heq
      | some t =>
        rw [hstart] at heq
        dsimp only at heq
        obtain ⟨hinvt, hc, hw, hs, hf, _, _, _⟩ :=
          start_next_command_inv s t id rest hready hinv hstart
        obtain ⟨hinv', hc', hw', hs', hf'⟩ := ih t s' heq hinvt
        exact ⟨hinv', by rw [hc', hc], by rw [hw', hw], by rw [hs', hs],
          by rw [hf', hf]⟩

theorem runStep_inv {exec : CommandId → Bool} {s s' : Scheduler}
    (h : RunStep exec s s') (hinv : SchedInv s) :
    SchedInv s' ∧ s'.commands.length = s.commands.length := by
  cases h with
  | finish id s1 hmem hfin hstart =>
    obtain ⟨hinv1, hlen1⟩ := on_command_finished_inv _ _ id _ hinv hmem hfin
    obtain ⟨hinv', hc', _, _, _⟩ :=
      startReadyAux_inv s1.ready.length s1 s' hstart hinv1
    exact ⟨hinv', by rw [hc']; exact hlen1⟩

theorem runSteps_inv {exec : CommandId → Bool} {s s' : Scheduler}
    (h : Relation.ReflTransGen (RunStep exec) s s') (hinv : SchedInv s) :
    SchedInv s' ∧ s'.commands.length = s.commands.length := by
  induction h with
  | refl => exact ⟨hinv, rfl⟩
  | tail hab hbc ih =>
    obtain ⟨hinvb, hlb⟩ := ih
    obtain ⟨hinvc, hlc⟩ := runStep_inv hbc hinvb
    exact ⟨hinvc, by rw [hlc, hlb]⟩

theorem count_sum_length (l : List Nat) (n : Nat) (h : ∀ x ∈ l, x < n) :
    ∑ x in Finset.range n, l.count x = l.length := by
  induction l with
  | nil => simp
  | cons a t ih =>
    have ha : a < n := h a (by simp)
    have ht : ∀ x ∈ t, x < n := fun x hx => h x (by simp [hx])
    have hcc : ∀ x, (a :: t).count x = t.count x + if a = x then 1 else 0 := by
      intro x
      rw [List.count_cons]
      by_cases hax : a = x
      · simp [hax]
      · have : ¬ ((a == x) = true) := by simpa using hax
        simp [this, hax]
    simp only [hcc]
    rw [Finset.sum_add_distrib, ih ht, Finset.sum_ite_eq,
      if_pos (Finset.mem_range.mpr ha)]
    simp

/-- C2: post-run accounting.  The execution loop of `run` exits exactly
when `ready.len + running == 0`; from any state satisfying the loop
invariant, every reachable exit state returns a `SchedulerResult` with
`not_run = waiting.len + ready.len`, with
`succeeded + failed + not_run` equal to the total number of commands
pushed, and with the `running` counter equal to `0`. -/
theorem run_accounting (exec : CommandId → Bool) (s0 sf : Scheduler)
    (hinv : SchedInv s0)
    (hsteps : Relation.ReflTransGen (RunStep exec) s0 sf)
    (hstop : sf.ready.length + sf.running.length = 0) :
    sf.schedulerResult.not_run = sf.waiting.length + sf.ready.length ∧
    sf.schedulerResult.succeeded + sf.schedulerResult.failed
        + sf.schedulerResult.not_run = s0.commands.length ∧
    sf.running.length = 0 := by
  obtain ⟨hinvf, hlen⟩ := runSteps_inv hsteps hinv
  have hready0 : sf.ready.length = 0 := by omega
  have hrun0 : sf.running.length = 0 := by omega
  refine ⟨rfl, ?_, hrun0⟩
  have hsum1 : ∑ x in Finset.range sf.commands.length,
      occCount sf.ready sf.waiting sf.running sf.succeeded sf.failed x
      = sf.commands.length := by
    rw [Finset.sum_congr rfl
      (fun x hx => hinvf.occ x (Finset.mem_range.mp hx))]
    simp
  have hrb : ∀ x ∈ sf.ready, x < sf.commands.length :=
    fun x hx => hinvf.mem_lt x (by simp [hx])
  have hwb : ∀ x ∈ sf.waiting, x < sf.commands.length :=
    fun x hx => hinvf.mem_lt x (by simp [hx])
  have hrub : ∀ x ∈ sf.running, x < sf.commands.length :=
    fun x hx => hinvf.mem_lt x (by simp [hx])
  have hsb : ∀ x ∈ sf.succeeded, x < sf.commands.length :=
    fun x hx => hinvf.mem_lt x (by simp [hx])
  have hfb : ∀ x ∈ sf.failed, x < sf.commands.length :=
    fun x hx => hinvf.mem_lt x (by simp [hx])
  have hsum2 : ∑ x in Finset.range sf.commands.length,
      occCount sf.ready sf.waiting sf.running sf.succeeded sf.failed x
      = sf.ready.length + sf.waiting.length + sf.running.length
        + sf.succeeded.length + sf.failed.length := by
    unfold occCount
    simp only [Finset.sum_add_distrib]
    rw [count_sum_length sf.ready _ hrb, count_sum_length sf.waiting _ hwb,
      count_sum_length sf.running _ hrub,
      count_sum_length sf.succeeded _ hsb,
      count_sum_length sf.failed _ hfb]
  have htotal := hsum1.symm.trans hsum2
  show sf.succeeded.length + sf.failed.length
      + (sf.waiting.length + sf.ready.length) = s0.commands.length
  omega

theorem run_accounting_witness :
    SchedInv chainDispatched ∧
    chainFailedRun.ready.length + chainFailedRun.running.length = 0 ∧
    (chainFailedRun.schedulerResult.not_run
        = chainFailedRun.waiting.length + chainFailedRun.ready.length ∧
      chainFailedRun.schedulerResult.succeeded
          + chainFailedRun.schedulerResult.failed
          + chainFailedRun.schedulerResult.not_run
        = chainDispatched.commands.length ∧
      chainFailedRun.running.length = 0) :=
  have hinv : SchedInv chainDispatched :=
    ⟨by decide, by decide, by decide, by decide, by decide, by decide,
      by decide⟩
  ⟨hinv, by decide,
    run_accounting (fun _ => false) chainDispatched chainFailedRun hinv
      (Relation.ReflTransGen.single
        (RunStep.finish 0 chainAfterFail (by decide) (by decide)
          (by decide)))
      (by decide)⟩

/-- Contract-level model of the `sha2` crate's incremental hasher state:
the bytes absorbed so far (`Sha256::update` appends; the crate guarantees
incremental hashing equals hashing the concatenation).  The actual
compression function is abstracted as an arbitrary function `sha` from the
absorbed bytes to the lowercase-hex digest string. -/
structure Sha256State where
  absorbed : List UInt8
deriving DecidableEq, Repr, Inhabited

/-- Model of `hasher.update(&buffer[..count])`. -/
def Sha256State.update (h : Sha256State) (chunk : List UInt8) : Sha256State :=
  ⟨h.absorbed ++ chunk⟩

/-- Model of `len as i64` (`usize` reinterpreted as `i64`). -/
def usizeToI64 (n : Nat) : Int :=
  if n % 2 ^ 64 < 2 ^ 63 then (n % 2 ^ 64 : Int)
  else (n % 2 ^ 64 : Int) - 2 ^ 64

/-- Model of the read loop of `Digest::for_file`
(`src/cache.rs:36-43`): `reader.read(&mut buffer)` yields up to 1024
bytes; each chunk is absorbed and counted until the file is exhausted. -/
def readLoop (h : Sha256State) (len : Nat) (rest : List UInt8) :
    Sha256State × Nat :=
  if hr : rest = [] then (h, len)
  else
    readLoop (h.update (rest.take 1024)) (len + (rest.take 1024).length)
      (rest.drop 1024)
termination_by rest.length
decreasing_by
  have hpos : 0 < rest.length := List.length_pos.mpr hr
  rw [List.length_drop]
  omega

/-- Model of `Digest::for_file` (`src/cache.rs:29-48`) on the bytes of a
readable file: streamed SHA-256 over successive fixed-size buffer reads,
hex-rendered, with the accumulated `usize` count cast to `i64`. -/
def Digest.for_file (sha : List UInt8 → String) (contents : List UInt8) :
    Digest :=
  let r := readLoop ⟨[]⟩ 0 contents
  ⟨sha r.1.absorbed, usizeToI64 r.2⟩

/-- Model of the one-shot reference `digest_file_sha256_simple`
(`src/cache.rs:65-71`): read the whole file into memory, hash the byte
slice, report the slice length. -/
def digest_file_sha256_simple (sha : List UInt8 → String)
    (bytes : List UInt8) : Digest :=
  ⟨sha bytes, usizeToI64 bytes.length⟩

theorem readLoop_spec :
    ∀ (n : Nat) (rest : List UInt8), rest.length ≤ n →
    ∀ (h : Sha256State) (len : Nat),
    readLoop h len rest = (⟨h.absorbed ++ rest⟩, len + rest.length) := by
  intro n
  induction n with
  | zero =>
    intro rest hle h len
    have hnil : rest = [] := List.length_eq_zero.mp (Nat.le_zero.mp hle)
    subst hnil
    unfold readLoop
    simp
  | succ m ih =>
    intro rest hle h len
    by_cases hr : rest = []
    · subst hr
      unfold readLoop
      simp
    · unfold readLoop
      rw [dif_neg hr]
      have hpos : 0 < rest.length := List.length_pos.mpr hr
      have hlen : (rest.drop 1024).length ≤ m := by
        rw [List.length_drop]
        omega
      rw [ih (rest.drop 1024) hlen]
      unfold Sha256State.update
      rw [Prod.mk.injEq]
      constructor
      · rw [List.append_assoc, List.take_append_drop]
      · rw [List.length_take, List.length_drop]
        omega

/-- C8: digest round-trip.  For every readable file (its bytes `contents`)
and every hash function `sha` standing for hex-rendered SHA-256, the
streamed `Digest::for_file` — SHA-256 absorbed over successive fixed-size
(1024-byte) buffer reads — returns the same `Digest`, equal in both `hash`
and `size_bytes`, as the one-shot `digest_file_sha256_simple` that reads
the whole file into memory, hashes the byte slice and reports the slice
length. -/
theorem digest_roundtrip (sha : List UInt8 → String)
    (contents : List UInt8) :
    Digest.for_file sha contents = digest_file_sha256_simple sha contents
      ∧ (Digest.for_file sha contents).hash
          = (digest_file_sha256_simple sha contents).hash
      ∧ (Digest.for_file sha contents).size_bytes
          = (digest_file_sha256_simple sha contents).size_bytes := by
  have h := readLoop_spec contents.length contents (le_refl _) ⟨[]⟩ 0
  unfold Digest.for_file digest_file_sha256_simple
  rw [h]
  simp

/-- State of the input-digest pass (`Scheduler::digest_input_files`,
`src/scheduler.rs:278-303`).  `txAlive` is `tx_option.is_some()`;
`pending` is the multiset of spawned digest tasks whose results have not
yet been received on the bounded channel; `nextId` is the arena cursor of
`spawn_digest_input_file`. -/
structure DState where
  files : List File
  txAlive : Bool
  nextId : Nat
  pending : List FileId
  missing : Nat
deriving DecidableEq, Repr, Inhabited

/-- Scan of `spawn_digest_input_file`'s `while let` loop
(`src/scheduler.rs:313-323`): advance the cursor past produced files to
the next file with `creating_command = None`, returning its id and the
advanced cursor, or `none` when the arena is exhausted. -/
def spawnScan (files : List File) (next : Nat) : Option (FileId × Nat) :=
  if h : next < files.length then
    if (files.getD next default).creating_command = none then
      some ((files.getD next default).id, next + 1)
    else spawnScan files (next + 1)
  else none
termination_by files.length - next
decreasing_by omega

/-- Model of one call to `spawn_digest_input_file`: no-op when the sender
was already dropped; otherwise spawn a task for the next pure-input file
or drop the sender (`tx_option.take()`) when the arena is exhausted. -/
def spawnOne (st : DState) : DState :=
  if st.txAlive then
    match spawnScan st.files st.nextId with
    | some (id, next') =>
      { st with nextId := next', pending := st.pending ++ [id] }
    | none => { st with txAlive := false }
  else st

/-- The initial spawns: `for _ in 0..concurrent` (`src/scheduler.rs:283`). -/
def spawnN : Nat → DState → DState
  | 0, st => st
  | k + 1, st => spawnN k (spawnOne st)

/-- Model of `self.files[id].digest = Some(digest)`. -/
def updateDigest (files : List File) (id : FileId) (d : Digest) :
    List File :=
  match files[id]? with
  | some f => files.set id { f with digest := some d }
  | none => files

/-- Model of one iteration of the receive loop
(`src/scheduler.rs:287-298`): consume one completed digest task (`oracle`
is the external file I/O: `Digest::for_file` per file id), assign the
digest on success or count the missing file on error, then spawn the next
pending file. -/
def recvStep (oracle : FileId → Option Digest) (st : DState)
    (id : FileId) : DState :=
  let st1 :=
    match oracle id with
    | some d => { st with files := updateDigest st.files id d,
                          pending := st.pending.erase id }
    | none => { st with missing := st.missing + 1,
                        pending := st.pending.erase id }
  spawnOne st1

/-- The initial state of the pass: `next_file_id = files.first_id()`, the
sender alive, then `concurrent` initial spawns. -/
def initDState (files : List File) (concurrent : Nat) : DState :=
  spawnN concurrent ⟨files, true, 0, [], 0⟩

/-- One nondeterministic step of the pass: the bounded channel delivers
the completion of some in-flight digest task. -/
inductive DStep (oracle : FileId → Option Digest) : DState → DState → Prop
  | recv (st : DState) (id : FileId) (hid : id ∈ st.pending) :
      DStep oracle st (recvStep oracle st id)

/-- The check after the receive loop (`src/scheduler.rs:299-302`). -/
def digestPassResult (st : DState) : Except String Unit :=
  if st.missing ≠ 0 then
    .error (toString st.missing ++ " input files not found!")
  else .ok ()

theorem spawnScan_spec (files : List File)
    (hids : ∀ i < files.length, (files.getD i default).id = i) :
    ∀ (k next : Nat), files.length - next ≤ k →
    (spawnScan files next = none →
      ∀ i, next ≤ i → i < files.length →
        ¬ (files.getD i default).creating_command = none) ∧
    (∀ id next', spawnScan files next = some (id, next') →
      next ≤ id ∧ next' = id + 1 ∧ id < files.length ∧
      (files.getD id default).creating_command = none ∧
      ∀ i, next ≤ i → i < id →
        ¬ (files.getD i default).creating_command = none) := by
  intro k
  induction k with
  | zero =>
    intro next hk
    have hge : ¬ next < files.length := by omega
    constructor
    · intro _ i h1 h2
      exact absurd (Nat.lt_of_le_of_lt h1 h2) (by omega)
    · intro id next' heq
      unfold spawnScan at heq
      rw [dif_neg hge] at heq
      exact Option.noConfusion heq
  | succ m ih =>
    intro next hk
    by_cases hlt : next < files.length
    case neg =>
      constructor
      · intro _ i h1 h2
        exact absurd (Nat.lt_of_le_of_lt h1 h2) (by omega)
      · intro id next' heq
        unfold spawnScan at heq
        rw [dif_neg hlt] at heq
        exact Option.noConfusion heq
    by_cases hin : (files.getD next default).creating_command = none
    · constructor
      · intro heq
        unfold spawnScan at heq
        rw [dif_pos hlt, if_pos hin] at heq
        exact Option.noConfusion heq
      · intro id next' heq
        unfold spawnScan at heq
        rw [dif_pos hlt, if_pos hin] at heq
        injection heq with heq
        rw [Prod.mk.injEq] at heq
        obtain ⟨h1, h2⟩ := heq
        rw [hids next hlt] at h1
        subst h1
        subst h2
        exact ⟨le_refl _, rfl, hlt, hin, fun i hi1 hi2 => by omega⟩
    · have hrec := ih (next + 1) (by omega)
      constructor
      · intro heq i h1 h2
        unfold spawnScan at heq
        rw [dif_pos hlt, if_neg hin] at heq
        rcases Nat.eq_or_lt_of_le h1 with h | h
        · rw [← h]
          exact hin
        · exact hrec.1 heq i h h2
      · intro id next' heq
        unfold spawnScan at heq
        rw [dif_pos hlt, if_neg hin] at heq
        obtain ⟨ha, hb, hc, hd, he⟩ := hrec.2 id next' heq
        refine ⟨by omega, hb, hc, hd, ?_⟩
        intro i hi1 hi2
        rcases Nat.eq_or_lt_of_le hi1 with h | h
        · rw [← h]
          exact hin
        · exact he i h hi2

/-- Whether the pass has already processed (received and accounted) file
`i` with a missing-file error. -/
def procB (files0 : List File) (oracle : FileId → Option Digest)
    (st : DState) (i : Nat) : Bool :=
  decide ((files0.getD i default).creating_command = none)
    && decide (i < st.nextId) && !(st.pending.contains i)
    && decide (oracle i = none)

theorem procB_iff (files0 : List File) (oracle : FileId → Option Digest)
    (st : DState) (i : Nat) :
    procB files0 oracle st i = true ↔
      ((files0.getD i default).creating_command = none ∧ i < st.nextId ∧
        i ∉ st.pending ∧ oracle i = none) := by
  unfold procB
  simp
  tauto

/-- Pass invariant: only digests ever change in the file arena; `pending`
holds in-range, already-scanned pure-input files without duplicates;
digests record exactly the processed prefix; `missing` counts exactly the
processed inputs whose digest computation failed; a dead sender means the
scan is complete. -/
structure DInv (files0 : List File) (oracle : FileId → Option Digest)
    (st : DState) : Prop where
  len : st.files.length = files0.length
  same_cc : ∀ i, (st.files.getD i default).creating_command
      = (files0.getD i default).creating_command
  same_id : ∀ i, (st.files.getD i default).id
      = (files0.getD i default).id
  next_le : st.nextId ≤ files0.length
  digests : ∀ i < files0.length,
    (st.files.getD i default).digest =
      if (files0.getD i default).creating_command = none ∧ i < st.nextId
          ∧ i ∉ st.pending then
        (match oracle i with
          | some d => some d
          | none => (files0.getD i default).digest)
      else (files0.getD i default).digest
  pending_mem : ∀ i ∈ st.pending, i < st.nextId ∧ i < files0.length ∧
    (files0.getD i default).creating_command = none
  pending_nodup : st.pending.Nodup
  missing_eq : st.missing
      = (List.range files0.length).countP (procB files0 oracle st)
  tx_done : st.txAlive = false → ∀ i < files0.length,
    (files0.getD i default).creating_command = none → i < st.nextId

theorem spawnScan_congr (files1 files2 : List File)
    (hlen : files1.length = files2.length)
    (hcc : ∀ i, (files1.getD i default).creating_command
      = (files2.getD i default).creating_command)
    (hid : ∀ i, (files1.getD i default).id
      = (files2.getD i default).id) :
    ∀ (k next : Nat), files1.length - next ≤ k →
    spawnScan files1 next = spawnScan files2 next := by
  intro k
  induction k with
  | zero =>
    intro next hk
    have h1 : ¬ next < files1.length := by omega
    have h2 : ¬ next < files2.length := by omega
    unfold spawnScan
    rw [dif_neg h1, dif_neg h2]
  | succ m ih =>
    intro next hk
    by_cases hlt : next < files1.length
    · have hlt2 : next < files2.length := by omega
      unfold spawnScan
      rw [dif_pos hlt, dif_pos hlt2, hcc next, hid next]
      by_cases hin : (files2.getD next default).creating_command = none
      · rw [if_pos hin, if_pos hin]
      · rw [if_neg hin, if_neg hin]
        exact ih (next + 1) (by omega)
    · have hlt2 : ¬ next < files2.length := by omega
      unfold spawnScan
      rw [dif_neg hlt, dif_neg hlt2]

theorem countP_flip_one :
    ∀ (l : List Nat) (p q : Nat → Bool) (id : Nat), l.Nodup → id ∈ l →
    p id = false → q id = true → (∀ x ∈ l, x ≠ id → p x = q x) →
    l.countP q = l.countP p + 1 := by
  intro l
  induction l with
  | nil =>
    intro p q id _ hmem
    cases hmem
  | cons a t ih =>
    intro p q id hnd hmem hp hq hag
    rw [List.countP_cons, List.countP_cons]
    rcases List.mem_cons.mp hmem with h | h
    · have ha : a = id := h.symm
      subst ha
      rw [hp, hq]
      have hnott : a ∉ t := (List.nodup_cons.mp hnd).1
      have ht : t.countP q = t.countP p := by
        apply (List.countP_congr ?_).symm
        intro x hx
        rw [hag x (by simp [hx]) (fun hh => hnott (hh ▸ hx))]
      rw [ht]
      simp
    · have ha : a ≠ id := fun hh => (List.nodup_cons.mp hnd).1 (hh ▸ h)
      rw [hag a (by simp) ha]
      have := ih p q id (List.nodup_cons.mp hnd).2 h hp hq
        (fun x hx hne => hag x (by simp [hx]) hne)
      omega

theorem dinv_spawnOne (files0 : List File)
    (oracle : FileId → Option Digest)
    (hids : ∀ i < files0.length, (files0.getD i default).id = i)
    (st : DState) (hinv : DInv files0 oracle st) :
    DInv files0 oracle (spawnOne st) ∧
    (spawnOne st).pending.length ≤ st.pending.length + 1 ∧
    (spawnOne st).files = st.files ∧
    (spawnOne st).missing = st.missing := by
  unfold spawnOne
  by_cases htx : st.txAlive = true
  case neg =>
    rw [if_neg htx]
    exact ⟨hinv, by omega, rfl, rfl⟩
  rw [if_pos htx]
  have hids' : ∀ i < st.files.length, (st.files.getD i default).id = i := by
    intro i hi
    rw [hinv.same_id i]
    exact hids i (by rw [← hinv.len]; exact hi)
  have hscan : spawnScan st.files st.nextId = spawnScan files0 st.nextId :=
    spawnScan_congr st.files files0 hinv.len hinv.same_cc hinv.same_id
      (st.files.length - st.nextId) st.nextId (le_refl _)
  cases hsc : spawnScan files0 st.nextId with
  | none =>
    rw [hscan, hsc]
    dsimp only
    refine ⟨?_, by omega, rfl, rfl⟩
    have hdone := (spawnScan_spec files0 hids
      (files0.length - st.nextId) st.nextId (le_refl _)).1 hsc
    exact ⟨hinv.len, hinv.same_cc, hinv.same_id, hinv.next_le, hinv.digests,
      hinv.pending_mem, hinv.pending_nodup, hinv.missing_eq,
      fun _ i hi hin => by
        by_contra hge
        try dsimp only at hge
        exact hdone i (by omega) hi hin⟩
  | some pair =>
    obtain ⟨id, next'⟩ := pair
    rw [hscan, hsc]
    dsimp only
    obtain ⟨hnle, hnext', hidlt, hinput, hgap⟩ :=
      (spawnScan_spec files0 hids (files0.length - st.nextId) st.nextId
        (le_refl _)).2 id next' hsc
    subst hnext'
    have hcond : ∀ i,
        ((files0.getD i default).creating_command = none ∧ i < id + 1 ∧
          i ∉ st.pending ++ [id]) ↔
        ((files0.getD i default).creating_command = none ∧
          i < st.nextId ∧ i ∉ st.pending) := by
      intro i
      constructor
      · rintro ⟨hinp, hlt, hnm⟩
        simp only [List.mem_append, List.mem_singleton] at hnm
        push_neg at hnm
        obtain ⟨hnp, hne⟩ := hnm
        refine ⟨hinp, ?_, hnp⟩
        by_contra hge
        exact hgap i (by omega) (by omega) hinp
      · rintro ⟨hinp, hlt, hnm⟩
        refine ⟨hinp, by omega, ?_⟩
        simp only [List.mem_append, List.mem_singleton]
        push_neg
        exact ⟨hnm, by omega⟩
    refine ⟨?_, by simp, rfl, rfl⟩
    refine ⟨hinv.len, hinv.same_cc, hinv.same_id, by
        try dsimp only
        exact Nat.succ_le_of_lt hidlt, ?_, ?_, ?_, ?_, ?_⟩
    · try dsimp only
      intro i hi
      rw [hinv.digests i hi]
      by_cases hc : (files0.getD i default).creating_command = none ∧
          i < st.nextId ∧ i ∉ st.pending
      · rw [if_pos hc, if_pos ((hcond i).mpr hc)]
      · rw [if_neg hc, if_neg (fun hh => hc ((hcond i).mp hh))]
    · try dsimp only
      intro i hi
      simp only [List.mem_append, List.mem_singleton] at hi
      rcases hi with h | h
      · obtain ⟨h1, h2, h3⟩ := hinv.pending_mem i h
        exact ⟨Nat.lt_succ_of_lt (Nat.lt_of_lt_of_le h1 hnle), h2, h3⟩
      · subst h
        exact ⟨Nat.lt_succ_self i, hidlt, hinput⟩
    · try dsimp only
      rw [List.nodup_append]
      refine ⟨hinv.pending_nodup, by simp, ?_⟩
      intro x hx
      have hxs := (hinv.pending_mem x hx).1
      simp only [List.mem_singleton]
      intro hxe
      subst hxe
      exact Nat.lt_irrefl x (Nat.lt_of_lt_of_le hxs hnle)
    · try dsimp only
      rw [hinv.missing_eq]
      apply List.countP_congr
      intro x _
      rw [procB_iff, procB_iff]
      constructor
      · rintro ⟨h1, h2, h3, h4⟩
        exact ⟨h1, ((hcond x).mpr ⟨h1, h2, h3⟩).2.1,
          ((hcond x).mpr ⟨h1, h2, h3⟩).2.2, h4⟩
      · rintro ⟨h1, h2, h3, h4⟩
        exact ⟨h1, ((hcond x).mp ⟨h1, h2, h3⟩).2.1,
          ((hcond x).mp ⟨h1, h2, h3⟩).2.2, h4⟩
    · try dsimp only
      intro hfalse
      rw [htx] at hfalse
      exact absurd hfalse (by simp)

theorem dinv_spawnN (files0 : List File)
    (oracle : FileId → Option Digest)
    (hids : ∀ i < files0.length, (files0.getD i default).id = i) :
    ∀ (n : Nat) (st : DState), DInv files0 oracle st →
    DInv files0 oracle (spawnN n st) ∧
    (spawnN n st).pending.length ≤ st.pending.length + n := by
  intro n
  induction n with
  | zero =>
    intro st h
    exact ⟨h, Nat.le_refl _⟩
  | succ k ih =>
    intro st h
    obtain ⟨h1, h2, _, _⟩ := dinv_spawnOne files0 oracle hids st h
    obtain ⟨h3, h4⟩ := ih (spawnOne st) h1
    refine ⟨h3, ?_⟩
    show (spawnN k (spawnOne st)).pending.length ≤ st.pending.length + (k + 1)
    omega

theorem dinv_initDState (files0 : List File)
    (oracle : FileId → Option Digest)
    (hids : ∀ i < files0.length, (files0.getD i default).id = i)
    (concurrent : Nat) :
    DInv files0 oracle (initDState files0 concurrent) ∧
    (initDState files0 concurrent).pending.length ≤ concurrent := by
  have hbase : DInv files0 oracle ⟨files0, true, 0, [], 0⟩ := by
    refine ⟨rfl, fun i => rfl, fun i => rfl, Nat.zero_le _, ?_, ?_, ?_, ?_, ?_⟩
    · intro i hi
      rw [if_neg (fun hc => Nat.not_lt_zero i hc.2.1)]
    · intro i hi
      exact absurd hi (List.not_mem_nil i)
    · exact List.nodup_nil
    · show 0 = (List.range files0.length).countP (procB files0 oracle ⟨files0, true, 0, [], 0⟩)
      symm
      apply List.countP_eq_zero.mpr
      intro a _
      unfold procB
      simp
    · intro h
      exact Bool.noConfusion h
  obtain ⟨h1, h2⟩ := dinv_spawnN files0 oracle hids concurrent _ hbase
  refine ⟨h1, ?_⟩
  unfold initDState
  calc (spawnN concurrent ⟨files0, true, 0, [], 0⟩).pending.length
      ≤ ([] : List FileId).length + concurrent := h2
    _ = concurrent := by simp

theorem bool_eq_of_true_iff {a b : Bool} (h : (a = true) ↔ (b = true)) :
    a = b := by
  cases a <;> cases b <;> simp_all

theorem dinv_recvStep (files0 : List File)
    (oracle : FileId → Option Digest)
    (hids : ∀ i < files0.length, (files0.getD i default).id = i)
    (st : DState) (hinv : DInv files0 oracle st)
    (id : FileId) (hid : id ∈ st.pending) :
    DInv files0 oracle (recvStep oracle st id) ∧
    (recvStep oracle st id).pending.length ≤ st.pending.length := by
  obtain ⟨hlt, hfl, hcc⟩ := hinv.pending_mem id hid
  have hpos : 0 < st.pending.length :=
    List.length_pos.mpr (List.ne_nil_of_mem hid)
  have hlen_e : (st.pending.erase id).length = st.pending.length - 1 :=
    List.length_erase_of_mem hid
  have hmem_e : ∀ x : FileId, x ∈ st.pending.erase id ↔
      x ≠ id ∧ x ∈ st.pending :=
    fun x => hinv.pending_nodup.mem_erase_iff
  have hnid_e : id ∉ st.pending.erase id :=
    fun h => ((hmem_e id).mp h).1 rfl
  unfold recvStep
  cases horc : oracle id with
  | some d =>
    dsimp only
    have hltf : id < st.files.length := by rw [hinv.len]; exact hfl
    have hupd : updateDigest st.files id d =
        st.files.set id { st.files.getD id default with digest := some d } := by
      unfold updateDigest
      rw [List.getElem?_eq_getElem hltf]
      dsimp only
      rw [List.getD_eq_getElem?_getD, List.getElem?_eq_getElem hltf]
      rfl
    have hinv1 : DInv files0 oracle
        { st with files := updateDigest st.files id d,
                  pending := st.pending.erase id } := by
      refine ⟨?_, ?_, ?_, hinv.next_le, ?_, ?_, ?_, ?_, ?_⟩
      · show (updateDigest st.files id d).length = files0.length
        rw [hupd, List.length_set, hinv.len]
      · intro i
        show ((updateDigest st.files id d).getD i default).creating_command = _
        rw [hupd]
        by_cases hii : id = i
        · subst hii
          rw [getD_set_self _ _ _ hltf]
          exact hinv.same_cc id
        · rw [getD_set_ne _ _ _ _ hii]
          exact hinv.same_cc i
      · intro i
        show ((updateDigest st.files id d).getD i default).id = _
        rw [hupd]
        by_cases hii : id = i
        · subst hii
          rw [getD_set_self _ _ _ hltf]
          exact hinv.same_id id
        · rw [getD_set_ne _ _ _ _ hii]
          exact hinv.same_id i
      · intro i hi
        show ((updateDigest st.files id d).getD i default).digest = _
        rw [hupd]
        by_cases hii : id = i
        · subst hii
          rw [getD_set_self _ _ _ hltf]
          rw [if_pos ⟨hcc, hlt, hnid_e⟩, horc]
        · rw [getD_set_ne _ _ _ _ hii]
          have hpe : i ∈ st.pending.erase id ↔ i ∈ st.pending := by
            rw [hmem_e]
            exact and_iff_right (fun hie => hii (hie.symm))
          rw [hinv.digests i hi]
          by_cases hc : (files0.getD i default).creating_command = none ∧
              i < st.nextId ∧ i ∉ st.pending
          · rw [if_pos hc, if_pos ⟨hc.1, hc.2.1, fun hm => hc.2.2 (hpe.mp hm)⟩]
          · rw [if_neg hc, if_neg (fun hc2 =>
              hc ⟨hc2.1, hc2.2.1, fun hm => hc2.2.2 (hpe.mpr hm)⟩)]
      · intro i hi
        exact hinv.pending_mem i (List.mem_of_mem_erase hi)
      · exact hinv.pending_nodup.erase id
      · show st.missing = _
        rw [hinv.missing_eq]
        apply List.countP_congr
        intro x _
        rw [procB_iff, procB_iff]
        constructor
        · rintro ⟨h1, h2, h3, h4⟩
          refine ⟨h1, h2, fun hm => h3 (List.mem_of_mem_erase hm), h4⟩
        · rintro ⟨h1, h2, h3, h4⟩
          by_cases hxi : x = id
          · subst hxi
            rw [horc] at h4
            exact Option.noConfusion h4
          · exact ⟨h1, h2, fun hm => h3 ((hmem_e x).mpr ⟨hxi, hm⟩), h4⟩
      · intro hfalse
        exact hinv.tx_done hfalse
    obtain ⟨hD, hlen2, _, _⟩ := dinv_spawnOne files0 oracle hids _ hinv1
    refine ⟨hD, ?_⟩
    have := hlen2
    dsimp only at this ⊢
    rw [hlen_e] at this
    omega
  | none =>
    dsimp only
    have hinv1 : DInv files0 oracle
        { st with missing := st.missing + 1,
                  pending := st.pending.erase id } := by
      refine ⟨hinv.len, hinv.same_cc, hinv.same_id, hinv.next_le,
        ?_, ?_, ?_, ?_, ?_⟩
      · intro i hi
        show (st.files.getD i default).digest = _
        by_cases hii : id = i
        · subst hii
          rw [if_pos ⟨hcc, hlt, hnid_e⟩, horc]
          have hd := hinv.digests id hi
          rw [if_neg (fun hc => hc.2.2 hid)] at hd
          exact hd
        · have hpe : i ∈ st.pending.erase id ↔ i ∈ st.pending := by
            rw [hmem_e]
            exact and_iff_right (fun hie => hii (hie.symm))
          rw [hinv.digests i hi]
          by_cases hc : (files0.getD i default).creating_command = none ∧
              i < st.nextId ∧ i ∉ st.pending
          · rw [if_pos hc, if_pos ⟨hc.1, hc.2.1, fun hm => hc.2.2 (hpe.mp hm)⟩]
          · rw [if_neg hc, if_neg (fun hc2 =>
              hc ⟨hc2.1, hc2.2.1, fun hm => hc2.2.2 (hpe.mpr hm)⟩)]
      · intro i hi
        exact hinv.pending_mem i (List.mem_of_mem_erase hi)
      · exact hinv.pending_nodup.erase id
      · show st.missing + 1 = _
        have hflip := countP_flip_one (List.range files0.length)
          (procB files0 oracle st)
          (procB files0 oracle
            { st with missing := st.missing + 1,
                      pending := st.pending.erase id })
          id (List.nodup_range files0.length) (List.mem_range.mpr hfl)
          (Bool.eq_false_iff.mpr
            (fun hq => ((procB_iff _ _ _ _).mp hq).2.2.1 hid))
          ((procB_iff _ _ _ _).mpr ⟨hcc, hlt, hnid_e, horc⟩)
          (fun x _ hxi => bool_eq_of_true_iff (by
            rw [procB_iff, procB_iff]
            have hpe : x ∈ st.pending.erase id ↔ x ∈ st.pending := by
              rw [hmem_e]
              exact and_iff_right hxi
            constructor
            · rintro ⟨h1, h2, h3, h4⟩
              exact ⟨h1, h2, fun hm => h3 (hpe.mp hm), h4⟩
            · rintro ⟨h1, h2, h3, h4⟩
              exact ⟨h1, h2, fun hm => h3 (hpe.mpr hm), h4⟩))
        rw [hflip, ← hinv.missing_eq]
      · intro hfalse
        exact hinv.tx_done hfalse
    obtain ⟨hD, hlen2, _, _⟩ := dinv_spawnOne files0 oracle hids _ hinv1
    refine ⟨hD, ?_⟩
    have := hlen2
    dsimp only at this ⊢
    rw [hlen_e] at this
    omega

theorem dinv_reach (files0 : List File)
    (oracle : FileId → Option Digest)
    (hids : ∀ i < files0.length, (files0.getD i default).id = i)
    (concurrent : Nat) (st : DState)
    (hreach : Relation.ReflTransGen (DStep oracle)
      (initDState files0 concurrent) st) :
    DInv files0 oracle st ∧ st.pending.length ≤ concurrent := by
  induction hreach with
  | refl => exact dinv_initDState files0 oracle hids concurrent
  | tail hab hbc ih =>
    cases hbc with
    | recv id2 hid2 =>
      obtain ⟨h1, h2⟩ := ih
      obtain ⟨h3, h4⟩ := dinv_recvStep files0 oracle hids _ h1 id2 hid2
      exact ⟨h3, Nat.le_trans h4 h2⟩

/-- C6: input-digest pass semantics.  Starting from the initial state of
`Scheduler::digest_input_files` (`src/scheduler.rs:278-303`: `concurrent =
worker_threads` initial spawns, cursor at the first arena id) and along
every sequence of received task completions, at most `concurrent` digest
tasks are in flight; and once the pass completes (sender dropped and no
task pending), every file with `creating_command = None` — and only those
— has its `digest` field assigned from its task's result when that task
succeeded and keeps its old digest otherwise, `missing` equals the number
of input files whose digest computation failed, and the pass fails with
the error `"N input files not found!"` exactly when that count `N` is
non-zero. -/
theorem digest_input_files_spec (files0 : List File)
    (oracle : FileId → Option Digest) (concurrent : Nat)
    (hids : ∀ i < files0.length, (files0.getD i default).id = i)
    (st : DState)
    (hreach : Relation.ReflTransGen (DStep oracle)
      (initDState files0 concurrent) st) :
    st.pending.length ≤ concurrent ∧
    (st.txAlive = false → st.pending = [] →
      (∀ i < files0.length,
        (files0.getD i default).creating_command = none →
          (st.files.getD i default).digest =
            (match oracle i with
              | some d => some d
              | none => (files0.getD i default).digest)) ∧
      (∀ i < files0.length,
        ¬ (files0.getD i default).creating_command = none →
          (st.files.getD i default).digest
            = (files0.getD i default).digest) ∧
      st.missing = (List.range files0.length).countP (fun i =>
        decide ((files0.getD i default).creating_command = none)
          && decide (oracle i = none)) ∧
      (st.missing ≠ 0 →
        digestPassResult st =
          .error (toString st.missing ++ " input files not found!")) ∧
      (st.missing = 0 → digestPassResult st = .ok ())) := by
  obtain ⟨hinv, hbound⟩ := dinv_reach files0 oracle hids concurrent st hreach
  refine ⟨hbound, ?_⟩
  intro htx hp
  refine ⟨?_, ?_, ?_, ?_, ?_⟩
  · intro i hi hcc
    have hd := hinv.digests i hi
    rw [if_pos ⟨hcc, hinv.tx_done htx i hi hcc,
      by rw [hp]; exact List.not_mem_nil i⟩] at hd
    exact hd
  · intro i hi hcc
    have hd := hinv.digests i hi
    rw [if_neg (fun hc => hcc hc.1)] at hd
    exact hd
  · rw [hinv.missing_eq]
    apply List.countP_congr
    intro x hx
    rw [procB_iff]
    simp only [Bool.and_eq_true, decide_eq_true_eq]
    constructor
    · rintro ⟨h1, _, _, h4⟩
      exact ⟨h1, h4⟩
    · rintro ⟨h1, h4⟩
      exact ⟨h1, hinv.tx_done htx x (List.mem_range.mp hx) h1,
        by rw [hp]; exact List.not_mem_nil x, h4⟩
  · intro hne
    unfold digestPassResult
    rw [if_pos hne]
  · intro hz
    unfold digestPassResult
    rw [if_neg (fun hc => hc hz)]

/-- Two-file arena for exercising the digest pass: file 0 is a pure input
(`creating_command = None`), file 1 is an output of command 0. -/
def dpassFiles : List File :=
  [ { id := 0, arg := ⟨false, ["in.txt"]⟩, path := ⟨false, ["in.txt"]⟩,
      creating_command := none, digest := none },
    { id := 1, arg := ⟨false, ["out.txt"]⟩,
      path := ⟨true, ["cwd", "razel-bin", "out.txt"]⟩,
      creating_command := some 0, digest := none } ]

/-- File I/O where every digest computation fails (file not found). -/
def dpassOracle : FileId → Option Digest := fun _ => none

/-- The state of the digest pass over `dpassFiles` after the single input
file's task has completed with an error and the sender was dropped. -/
def dpassFinal : DState := ⟨dpassFiles, false, 1, [], 1⟩

theorem digest_input_files_spec_witness :
    dpassFinal.pending.length ≤ 1 ∧
    (dpassFinal.files.getD 0 default).digest = none ∧
    (dpassFinal.files.getD 1 default).digest = none ∧
    dpassFinal.missing = 1 ∧
    digestPassResult dpassFinal = .error "1 input files not found!" := by
  have hsc0 : spawnScan dpassFiles 0 = some (0, 1) := by
    unfold spawnScan
    rw [dif_pos (by decide : (0 : Nat) < dpassFiles.length),
      if_pos (by decide :
        (dpassFiles.getD 0 default).creating_command = none)]
    decide
  have hsc1 : spawnScan dpassFiles 1 = none := by
    unfold spawnScan
    rw [dif_pos (by decide : (1 : Nat) < dpassFiles.length),
      if_neg (by decide :
        ¬ (dpassFiles.getD 1 default).creating_command = none)]
    unfold spawnScan
    rw [dif_neg (by decide : ¬ (2 : Nat) < dpassFiles.length)]
  have hinit : initDState dpassFiles 1 = ⟨dpassFiles, true, 1, [0], 0⟩ := by
    show spawnN 1 ⟨dpassFiles, true, 0, [], 0⟩ = _
    unfold spawnN spawnOne
    rw [hsc0]
    decide
  have hfin : recvStep dpassOracle ⟨dpassFiles, true, 1, [0], 0⟩ 0
      = dpassFinal := by
    unfold recvStep dpassOracle
    dsimp only
    unfold spawnOne
    dsimp only
    rw [show ([0] : List FileId).erase 0 = [] from rfl, hsc1]
    decide
  have hreach : Relation.ReflTransGen (DStep dpassOracle)
      (initDState dpassFiles 1) dpassFinal := by
    rw [hinit, ← hfin]
    exact Relation.ReflTransGen.single
      (DStep.recv ⟨dpassFiles, true, 1, [0], 0⟩ 0 (by decide))
  obtain ⟨hb, hc⟩ := digest_input_files_spec dpassFiles dpassOracle 1
    (by decide) dpassFinal hreach
  obtain ⟨hdig, hnodig, hmiss, herr, _⟩ := hc rfl rfl
  have hm1 : dpassFinal.missing = 1 := by
    rw [hmiss]
    decide
  refine ⟨hb, ?_, ?_, hm1, ?_⟩
  · have h0 := hdig 0 (by decide) (by decide)
    rw [h0]
    decide
  · have h1 := hnodig 1 (by decide) (by decide)
    rw [h1]
    decide
  · have he := herr (by rw [hm1]; decide)
    rw [he, hm1]
    exact congrArg Except.error (by decide)
